import Mathlib

/-!
Verification development for the Markdown-to-rich-text engine of the
broadcom_security_advisories repository.

The engine exists in two variants:
* `src/unnamed/part_001` (`buildRichTextFromMarkdown_`): regexes rewrite
  bold/italic/code delimiters into private marker characters \u0002..\u0007,
  then marker pairs are expanded by `indexOf`-style scans (`expandStyle`).
* `src/unnamed/part_002` (`buildRichTextFromMarkdown_`): the same
  line-normalization and link pass, but `expandStyle` runs directly on the
  `**` / `*` / backtick delimiter syntax.
Both share `stripMarkdown_`, the plain-text reducer.

Strings are embedded as `List Char`; each JavaScript regex replacement is
embedded as an explicit left-to-right scanner that mirrors the backtracking
behaviour of the corresponding regular expression (JS `\s` matches newlines,
`.` excludes line terminators, `^`/`$` with the `m` flag are line anchors).
Scanning loops take an explicit fuel argument; every wrapper passes the input
length, which is enough fuel since every step consumes at least one character.
Running out of fuel returns the remaining input unchanged, so identity lemmas
hold for every fuel value.
-/

/-- Kinds of style runs produced by the engine: JS strings
'bold' | 'italic' | 'code' | 'link'. -/
inductive StyleKind where
  | bold
  | italic
  | code
  | link
deriving DecidableEq

/-- A style run `{start, end, type, url?}` as pushed into the `runs` array.
The source field `end` is a Lean keyword, embedded here as `stop`.
`url` is `some u` exactly for the link runs (which carry a `url` field). -/
structure Run where
  start : Nat
  stop : Nat
  kind : StyleKind
  url : Option (List Char)
deriving DecidableEq

/-- Sentinel \u0000: open marker for a resolved link label. -/
def sOpen : Char := Char.ofNat 0
/-- Sentinel \u0001: close marker for a resolved link label. -/
def sClose : Char := Char.ofNat 1
/-- Marker \u0002: open marker for bold content (part_001 only). -/
def bOpen : Char := Char.ofNat 2
/-- Marker \u0003: close marker for bold content (part_001 only). -/
def bClose : Char := Char.ofNat 3
/-- Marker \u0004: open marker for italic content (part_001 only). -/
def iOpen : Char := Char.ofNat 4
/-- Marker \u0005: close marker for italic content (part_001 only). -/
def iClose : Char := Char.ofNat 5
/-- Marker \u0006: open marker for code content (part_001 only). -/
def cOpen : Char := Char.ofNat 6
/-- Marker \u0007: close marker for code content (part_001 only). -/
def cClose : Char := Char.ofNat 7
/-- The backtick character, the code delimiter. -/
def btick : Char := Char.ofNat 96

/-- Whitespace class of JavaScript regex `\s`:
tab, LF, VT, FF, CR, space, NBSP, Ogham space, the U+2000..U+200A spaces,
LS, PS, NNBSP, MMSP, ideographic space and BOM. -/
def isJsSpace (c : Char) : Bool :=
  let n := c.toNat
  n = 9 || n = 10 || n = 11 || n = 12 || n = 13 || n = 32 ||
  n = 0xa0 || n = 0x1680 || (0x2000 ≤ n && n ≤ 0x200a) ||
  n = 0x2028 || n = 0x2029 || n = 0x202f || n = 0x205f ||
  n = 0x3000 || n = 0xfeff

/-- JavaScript line terminators (LF, CR, LS, PS): the characters `.` never
matches and the positions at which the `m`-flag anchors `^` / `$` fire. -/
def isLineTerm (c : Char) : Bool :=
  let n := c.toNat
  n = 10 || n = 13 || n = 0x2028 || n = 0x2029

/-- JavaScript `String.prototype.trim`, over the `\s` whitespace class. -/
def jsTrim (l : List Char) : List Char :=
  ((l.dropWhile isJsSpace).reverse.dropWhile isJsSpace).reverse

/-- Embedding of `md.replace(/\r\n?/g, '\n')`: every CRLF pair and every
lone CR becomes a single LF (part_001 line 208, part_002 line 218,
stripMarkdown_ first substitution). -/
def normalizeNewlines : List Char → List Char
  | [] => []
  | [c] => if c = '\r' then ['\n'] else [c]
  | c :: d :: rest =>
    if c = '\r' then
      if d = '\n' then '\n' :: normalizeNewlines rest
      else '\n' :: normalizeNewlines (d :: rest)
    else c :: normalizeNewlines (d :: rest)

/-! ## Heading rewrite: `/^(#{1,6})\s*(.+)$/gm`

A match at a line start takes up to six `#` (backtracking from the longest),
then greedy `\s*` (which, JS-faithfully, can consume newlines, backtracking
until the following `(.+)` finds a non-terminator first character), then
`(.+)` runs to the end of that line. -/

/-- Number of leading `#` characters, the candidate `#{1,6}` match. -/
def hashCount (cs : List Char) : Nat := (cs.takeWhile (· = '#')).length

/-- Backtracking search for the split point of `\s*(.+)`: the largest
`j ≤ W` such that the character at offset `j` exists and is not a line
terminator (so that `(.+)` can start there). -/
def findJ (after : List Char) : Nat → Option Nat
  | 0 =>
    match after[0]? with
    | some c => if isLineTerm c then none else some 0
    | none => none
  | j + 1 =>
    match after[j + 1]? with
    | some c => if isLineTerm c then findJ after j else some (j + 1)
    | none => findJ after j

/-- Attempt the heading match with exactly `k` hash characters consumed:
returns the `(.+)` capture and the total number of input characters the
match spans. -/
def tryHeadAt (cs : List Char) (k : Nat) : Option (List Char × Nat) :=
  let after := cs.drop k
  match findJ after (after.takeWhile isJsSpace).length with
  | none => none
  | some j =>
    let content := (after.drop j).takeWhile (fun c => !isLineTerm c)
    some (content, k + j + content.length)

/-- Backtracking over the hash count, longest first (`#{1,6}` is greedy). -/
def tryHeadK (cs : List Char) : Nat → Option (List Char × Nat)
  | 0 => none
  | k + 1 =>
    match tryHeadAt cs (k + 1) with
    | some r => some r
    | none => tryHeadK cs k

/-- The full heading regex attempt at a line-start position. -/
def tryHeading (cs : List Char) : Option (List Char × Nat) :=
  if hashCount cs = 0 then none else tryHeadK cs (min 6 (hashCount cs))

/-- Scanner for the global heading replacement. `atStart` records whether the
`^` anchor holds at the current position. The styled builders replace a match
by `'**' + capture.trim() + '**'` (part_001 lines 211-213, part_002
lines 221-222). -/
def headingGo : Nat → Bool → List Char → List Char
  | 0, _, cs => cs
  | _ + 1, _, [] => []
  | fuel + 1, atStart, c :: cs =>
    if atStart then
      match tryHeading (c :: cs) with
      | some (content, n) =>
        '*' :: '*' :: (jsTrim content ++ '*' :: '*' :: headingGo fuel false ((c :: cs).drop n))
      | none => c :: headingGo fuel (isLineTerm c) cs
    else c :: headingGo fuel (isLineTerm c) cs

/-- The heading stage of the styled builders (the `md.replace` call on the
heading regex), with material fuel. -/
def headingPass (s : List Char) : List Char := headingGo s.length true s

/-- Scanner for the heading replacement of `stripMarkdown_`, which replaces a
match by the bare capture `$2` (untrimmed). -/
def headingStripGo : Nat → Bool → List Char → List Char
  | 0, _, cs => cs
  | _ + 1, _, [] => []
  | fuel + 1, atStart, c :: cs =>
    if atStart then
      match tryHeading (c :: cs) with
      | some (content, n) =>
        content ++ headingStripGo fuel false ((c :: cs).drop n)
      | none => c :: headingStripGo fuel (isLineTerm c) cs
    else c :: headingStripGo fuel (isLineTerm c) cs

/-! ## Bullet rewrite: `/^\s*[-*]\s+/gm` replaced by a bullet glyph and
a space. -/

/-- Whether the whitespace run of length `w2` at the front of `rest` ends in
a line terminator (decides whether the `^` anchor holds after the match). -/
def endTerm (rest : List Char) (w2 : Nat) : Bool :=
  match rest[w2 - 1]? with
  | some c => isLineTerm c
  | none => false

/-- Attempt of the bullet regex at a line-start position: greedy `\s*`, a
`-` or `*` marker, then `\s+` (at least one whitespace character, possibly
spanning newlines). Returns the matched length and whether the `^` anchor
holds immediately after the match. Since the marker characters are not
whitespace, the greedy `\s*` always stops exactly at the first non-space
character, so consuming the spaces one at a time is faithful. -/
def tryBullet : List Char → Option (Nat × Bool)
  | [] => none
  | c :: cs =>
    if c = '-' || c = '*' then
      if (cs.takeWhile isJsSpace).length = 0 then none
      else some (1 + (cs.takeWhile isJsSpace).length, endTerm cs (cs.takeWhile isJsSpace).length)
    else if isJsSpace c then (tryBullet cs).map (fun p => (p.1 + 1, p.2))
    else none

/-- Scanner for the global bullet replacement (part_001 line 216, part_002
line 224, stripMarkdown_ last substitution): each match becomes a bullet
glyph followed by one space. -/
def bulletGo : Nat → Bool → List Char → List Char
  | 0, _, cs => cs
  | _ + 1, _, [] => []
  | fuel + 1, atStart, c :: cs =>
    if atStart then
      match tryBullet (c :: cs) with
      | some (n, nl) => '•' :: ' ' :: bulletGo fuel nl ((c :: cs).drop n)
      | none => c :: bulletGo fuel (isLineTerm c) cs
    else c :: bulletGo fuel (isLineTerm c) cs

/-- The LineNormalizer stage shared by every entry point: newline
normalization, then the heading rewrite, then the bullet rewrite. -/
def lineNormalize (s : List Char) : List Char :=
  let m1 := normalizeNewlines s
  let m2 := headingPass m1
  bulletGo m2.length true m2

/-! ## Link extraction: `/\[([^\]]+)\]\((https?:\/\/[^\s)]+)\)/g`

Each match is replaced by `'\u0000' + label + '\u0001'` and the pair
`{label, url}` is pushed onto the `linkRuns` queue (part_001 lines 219-224,
part_002 lines 227-231). -/

/-- Attempt of the URL part `https?:\/\/[^\s)]+` at the current position:
returns the full captured URL (scheme included). The optional `s` is tried
first, mirroring greedy `s?`; since `s` and `:` are distinct characters the
two alternatives never both apply. -/
def tryUrl (cs : List Char) : Option (List Char) :=
  match cs with
  | 'h' :: 't' :: 't' :: 'p' :: 's' :: ':' :: '/' :: '/' :: r2 =>
    let tail := r2.takeWhile (fun c => !isJsSpace c && c ≠ ')')
    if tail.isEmpty then none
    else some ('h' :: 't' :: 't' :: 'p' :: 's' :: ':' :: '/' :: '/' :: tail)
  | 'h' :: 't' :: 't' :: 'p' :: ':' :: '/' :: '/' :: r2 =>
    let tail := r2.takeWhile (fun c => !isJsSpace c && c ≠ ')')
    if tail.isEmpty then none
    else some ('h' :: 't' :: 't' :: 'p' :: ':' :: '/' :: '/' :: tail)
  | _ => none

/-- Attempt of the whole link regex at the current position: a `[`, a
nonempty label free of `]`, the literal `](`, the URL, and a closing `)`.
Returns `(label, url, matchedLength)`. -/
def tryLink (cs : List Char) : Option (List Char × List Char × Nat) :=
  match cs with
  | '[' :: rest =>
    let label := rest.takeWhile (· ≠ ']')
    if label.isEmpty then none
    else
      match rest.drop label.length with
      | ']' :: '(' :: urlpart =>
        match tryUrl urlpart with
        | some url =>
          match urlpart.drop url.length with
          | ')' :: _ => some (label, url, 1 + label.length + 2 + url.length + 1)
          | _ => none
        | none => none
      | _ => none
  | _ => none

/-- Scanner for the global link replacement: the text with each link match
replaced by its sentinel-wrapped label, plus the queue of `(label, url)`
pairs in match order. -/
def linkGo : Nat → List Char → List Char × List (List Char × List Char)
  | 0, cs => (cs, [])
  | _ + 1, [] => ([], [])
  | fuel + 1, c :: cs =>
    match tryLink (c :: cs) with
    | some (label, url, n) =>
      let r := linkGo fuel ((c :: cs).drop n)
      (sOpen :: (label ++ sClose :: r.1), (label, url) :: r.2)
    | none =>
      let r := linkGo fuel cs
      (c :: r.1, r.2)

/-- Scanner for the link replacement of `stripMarkdown_`, which substitutes
`'$1 ($2)'` (label, space, parenthesized URL). -/
def linkStripGo : Nat → List Char → List Char
  | 0, cs => cs
  | _ + 1, [] => []
  | fuel + 1, c :: cs =>
    match tryLink (c :: cs) with
    | some (label, url, n) =>
      label ++ ' ' :: '(' :: (url ++ ')' :: linkStripGo fuel ((c :: cs).drop n))
    | none => c :: linkStripGo fuel cs

/-! ## Bold/italic/code marker passes (part_001 only)

`/\*\*(.+?)\*\*/g`, `/\*(.+?)\*/g` and the backtick regex rewrite each
delimited span into a marker-wrapped span. The lazy `(.+?)` takes the
shortest nonempty run of non-line-terminator characters followed by the
closing delimiter. -/

/-- Lazy search for the bold closer: the shortest nonempty inner text (no
line terminators) after which the input continues with `**`. -/
def lazyBold : List Char → Option (List Char)
  | [] => none
  | c :: rest =>
    if isLineTerm c then none
    else
      match rest with
      | '*' :: '*' :: _ => some [c]
      | _ => (lazyBold rest).map (c :: ·)

/-- Lazy search for a one-character closer `cl`: the shortest nonempty inner
text (no line terminators) followed by `cl`. -/
def lazyTok (cl : Char) : List Char → Option (List Char)
  | [] => none
  | c :: rest =>
    if isLineTerm c then none
    else
      match rest with
      | r0 :: _ => if r0 = cl then some [c] else (lazyTok cl rest).map (c :: ·)
      | [] => none

/-- Scanner for `/\*\*(.+?)\*\*/g` replaced by `'\u0002' + inner + '\u0003'`
(part_001 lines 229-232). -/
def boldGo : Nat → List Char → List Char
  | 0, cs => cs
  | _ + 1, [] => []
  | fuel + 1, '*' :: '*' :: rest =>
    match lazyBold rest with
    | some inner => bOpen :: (inner ++ bClose :: boldGo fuel (rest.drop (inner.length + 2)))
    | none => '*' :: boldGo fuel ('*' :: rest)
  | fuel + 1, c :: cs => c :: boldGo fuel cs

/-- Scanner for `/\*(.+?)\*/g` replaced by `'\u0004' + inner + '\u0005'`
(part_001 lines 235-238). -/
def italicGo : Nat → List Char → List Char
  | 0, cs => cs
  | _ + 1, [] => []
  | fuel + 1, '*' :: rest =>
    match lazyTok '*' rest with
    | some inner => iOpen :: (inner ++ iClose :: italicGo fuel (rest.drop (inner.length + 1)))
    | none => '*' :: italicGo fuel rest
  | fuel + 1, c :: cs => c :: italicGo fuel cs

/-- Scanner for the code regex (backtick, one or more non-backtick
characters, backtick) replaced by `'\u0006' + inner + '\u0007'`
(part_001 lines 241-244). -/
def codeGo : Nat → List Char → List Char
  | 0, cs => cs
  | _ + 1, [] => []
  | fuel + 1, c :: rest =>
    if c = btick then
      let inner := rest.takeWhile (· ≠ btick)
      if inner.isEmpty then c :: codeGo fuel rest
      else
        match rest.drop inner.length with
        | _ :: r2 => cOpen :: (inner ++ cClose :: codeGo fuel r2)
        | [] => c :: codeGo fuel rest
    else c :: codeGo fuel rest

/-- Scanner for the bold substitution of `stripMarkdown_` (`'$1'`). -/
def boldStripGo : Nat → List Char → List Char
  | 0, cs => cs
  | _ + 1, [] => []
  | fuel + 1, '*' :: '*' :: rest =>
    match lazyBold rest with
    | some inner => inner ++ boldStripGo fuel (rest.drop (inner.length + 2))
    | none => '*' :: boldStripGo fuel ('*' :: rest)
  | fuel + 1, c :: cs => c :: boldStripGo fuel cs

/-- Scanner for the italic substitution of `stripMarkdown_` (`'$1'`). -/
def italicStripGo : Nat → List Char → List Char
  | 0, cs => cs
  | _ + 1, [] => []
  | fuel + 1, '*' :: rest =>
    match lazyTok '*' rest with
    | some inner => inner ++ italicStripGo fuel (rest.drop (inner.length + 1))
    | none => '*' :: italicStripGo fuel rest
  | fuel + 1, c :: cs => c :: italicStripGo fuel cs

/-- Scanner for the code substitution of `stripMarkdown_` (`'$1'`). -/
def codeStripGo : Nat → List Char → List Char
  | 0, cs => cs
  | _ + 1, [] => []
  | fuel + 1, c :: rest =>
    if c = btick then
      let inner := rest.takeWhile (· ≠ btick)
      if inner.isEmpty then c :: codeStripGo fuel rest
      else
        match rest.drop inner.length with
        | _ :: r2 => inner ++ codeStripGo fuel r2
        | [] => c :: codeStripGo fuel rest
    else c :: codeStripGo fuel rest

/-! ## Sentinel resolution and `expandStyle`

Both variants first expand the `\u0000 label \u0001` link markers while
recording absolute link runs, then run `expandStyle` once per style kind.
In part_001 the `final` accumulator is still the empty string when
`expandStyle` runs (the `consumeMarkerSegments` helper is never called and
`final += text` happens only afterwards), so `(final + out).length` is
`out.length`; the `base` parameter below models that `final` prefix. -/

/-- Scanner for the link-marker expansion loop (part_001 lines 278-303,
part_002 lines 255-273): `acc` is the `tmp` accumulator, `q` the rest of the
`linkRuns` queue. An unmatched open sentinel is emitted literally; a matched
pair emits the label, records a Link run at the current accumulator length,
and dequeues (no run is pushed when the queue is exhausted, mirroring
`linkRuns[linkIdx] && linkRuns[linkIdx].url`). -/
def linkExpandGo : Nat → List (List Char × List Char) → List Char → List Char →
    List Char × List Run
  | 0, _, acc, src => (acc ++ src, [])
  | _ + 1, _, acc, [] => (acc, [])
  | fuel + 1, q, acc, c :: rest =>
    if c = sOpen then
      if rest.contains sClose then
        let label := rest.takeWhile (· ≠ sClose)
        let rest2 := rest.drop (label.length + 1)
        match q with
        | (_, url) :: q2 =>
          let r := linkExpandGo fuel q2 (acc ++ label) rest2
          (r.1, ⟨acc.length, acc.length + label.length, .link, some url⟩ :: r.2)
        | [] => linkExpandGo fuel [] (acc ++ label) rest2
      else linkExpandGo fuel q (acc ++ [c]) rest
    else linkExpandGo fuel q (acc ++ [c]) rest

/-- First index at which `tok` occurs as a contiguous block, the embedding of
`String.prototype.indexOf`. -/
def idxOf (tok : List Char) : List Char → Option Nat
  | [] => if tok.isEmpty then some 0 else none
  | c :: cs => if tok.isPrefixOf (c :: cs) then some 0 else (idxOf tok cs).map (· + 1)

/-- The `expandStyle(src, open, close, type)` loop of both variants
(part_001 lines 306-329, part_002 lines 236-252): scan for the open token,
copy the gap verbatim, and either emit the open token literally when no close
token follows, or append the inner slice and record a run whose offsets are
`(final + out).length` before and after the append (`base` is the `final`
prefix, the empty string at every call site). -/
def expandStyle : Nat → List Char → List Char → StyleKind → List Char →
    List Char → List Char → List Char × List Run
  | 0, _, _, _, _, out, src => (out ++ src, [])
  | fuel + 1, opn, cls, k, base, out, src =>
    match idxOf opn src with
    | none => (out ++ src, [])
    | some o =>
      let out1 := out ++ src.take o
      let afterOpen := src.drop (o + opn.length)
      match idxOf cls afterOpen with
      | none => expandStyle fuel opn cls k base (out1 ++ opn) afterOpen
      | some c =>
        let out2 := out1 ++ afterOpen.take c
        let r := expandStyle fuel opn cls k base out2 (afterOpen.drop (c + cls.length))
        (r.1, ⟨base.length + out1.length, base.length + out2.length, k, none⟩ :: r.2)

/-! ## The two assembled engines and the plain-text reducer -/

/-- LineNormalizer plus LinkExtractor, shared by both variants: the
sentinel-marked text and the link queue. -/
def preLink (s : List Char) : List Char × List (List Char × List Char) :=
  linkGo (lineNormalize s).length (lineNormalize s)

/-- The marker-conversion phase of part_001: bold, italic and code regexes
rewrite delimiter syntax into the marker characters. -/
def markedA (s : List Char) : List Char :=
  let t1 := boldGo (preLink s).1.length (preLink s).1
  let t2 := italicGo t1.length t1
  codeGo t2.length t2

/-- Sentinel-resolution stage of part_001: text and Link runs. -/
def stageLinkA (s : List Char) : List Char × List Run :=
  linkExpandGo (markedA s).length (preLink s).2 [] (markedA s)

/-- Bold marker expansion stage of part_001. -/
def stageBoldA (s : List Char) : List Char × List Run :=
  expandStyle (stageLinkA s).1.length [bOpen] [bClose] .bold [] [] (stageLinkA s).1

/-- Italic marker expansion stage of part_001. -/
def stageItalicA (s : List Char) : List Char × List Run :=
  expandStyle (stageBoldA s).1.length [iOpen] [iClose] .italic [] [] (stageBoldA s).1

/-- Code marker expansion stage of part_001. -/
def stageCodeA (s : List Char) : List Char × List Run :=
  expandStyle (stageItalicA s).1.length [cOpen] [cClose] .code [] [] (stageItalicA s).1

/-- Compiled text of `buildRichTextFromMarkdown_` from `src/unnamed/part_001`:
the final plain text (`final += text` with `final` previously empty) and the
runs in emission order (link, bold, italic, code). -/
def buildRichTextFromMarkdownA (s : List Char) : List Char × List Run :=
  ((stageCodeA s).1,
   (stageLinkA s).2 ++ (stageBoldA s).2 ++ (stageItalicA s).2 ++ (stageCodeA s).2)

/-- Sentinel-resolution stage of part_002 (runs directly on the link-marked
text, with no bold/italic/code marker conversion). -/
def stageLinkB (s : List Char) : List Char × List Run :=
  linkExpandGo (preLink s).1.length (preLink s).2 [] (preLink s).1

/-- Bold stage of part_002: `expandStyle(text, '**', '**', 'bold')`. -/
def stageBoldB (s : List Char) : List Char × List Run :=
  expandStyle (stageLinkB s).1.length ['*', '*'] ['*', '*'] .bold [] [] (stageLinkB s).1

/-- Italic stage of part_002: `expandStyle(text, '*', '*', 'italic')`. -/
def stageItalicB (s : List Char) : List Char × List Run :=
  expandStyle (stageBoldB s).1.length ['*'] ['*'] .italic [] [] (stageBoldB s).1

/-- Code stage of part_002: `expandStyle` on backtick delimiters. -/
def stageCodeB (s : List Char) : List Char × List Run :=
  expandStyle (stageItalicB s).1.length [btick] [btick] .code [] [] (stageItalicB s).1

/-- Compiled text of `buildRichTextFromMarkdown_` from `src/unnamed/part_002`:
`final = text` after the code stage, runs in emission order. -/
def buildRichTextFromMarkdownB (s : List Char) : List Char × List Run :=
  ((stageCodeB s).1,
   (stageLinkB s).2 ++ (stageBoldB s).2 ++ (stageItalicB s).2 ++ (stageCodeB s).2)

/-- The plain-text reducer `stripMarkdown_` (part_001 lines 359-369, part_002
lines 303-313): newline normalization, heading unwrap (`'$2'`), link rewrite
(`'$1 ($2)'`), bold/italic/code delimiter stripping (`'$1'`), bullet rewrite.
The `if (!s) return ''` guard is the identity on the empty string and is
subsumed by the scanners. -/
def stripMarkdown (s : List Char) : List Char :=
  let m1 := normalizeNewlines s
  let m2 := headingStripGo m1.length true m1
  let m3 := linkStripGo m2.length m2
  let m4 := boldStripGo m3.length m3
  let m5 := italicStripGo m4.length m4
  let m6 := codeStripGo m5.length m5
  bulletGo m6.length true m6

/-! ## Markup-absence predicates

Decidable syntactic characterizations of "contains no markup delimiters",
used to state the delimiter-free round-trip properties. -/

/-- No line of the text starts with `#` (the flag tracks the `^` anchor). -/
def noHeadAux : Bool → List Char → Bool
  | _, [] => true
  | a, c :: cs => !(a && c = '#') && noHeadAux (isLineTerm c) cs

/-- Whether the first character exists and is JS whitespace. -/
def headSpace : List Char → Bool
  | d :: _ => isJsSpace d
  | [] => false

/-- No match of the bullet regex `^\s*[-*]\s+` anywhere: the flag tracks
"every character since the current line start was whitespace", and a
reachable `-`/`*` followed by whitespace is a match. -/
def noBulletAux : Bool → List Char → Bool
  | _, [] => true
  | a, c :: cs =>
    !(a && (c = '-' || c = '*') && headSpace cs) &&
    noBulletAux (if isLineTerm c then true else a && isJsSpace c) cs

/-- Some position of the text matches the link regex. -/
def hasLink : List Char → Bool
  | [] => false
  | c :: cs => (tryLink (c :: cs)).isSome || hasLink cs

/-- The input (already newline-normalized) contains no markup the styled
builders react to: no `*`, no backtick, no line starting with `#`, no bullet
match, no link match, and none of the engine's reserved sentinel/marker
characters \u0000..\u0007 (whose absence §3/§9 of the specification assume
for all well-formed inputs). -/
def noMd (s : List Char) : Bool :=
  !decide ('*' ∈ s) && !decide (btick ∈ s) &&
  noHeadAux true s && noBulletAux true s && !hasLink s &&
  !decide (sOpen ∈ s) && !decide (sClose ∈ s) &&
  !decide (bOpen ∈ s) && !decide (bClose ∈ s) &&
  !decide (iOpen ∈ s) && !decide (iClose ∈ s) &&
  !decide (cOpen ∈ s) && !decide (cClose ∈ s)

/-- The text contains nothing `stripMarkdown_` reacts to: no CR, no `*`, no
backtick, no line starting with `#`, no bullet match, no link match. -/
def plainNoMarkup (s : List Char) : Bool :=
  !decide ('\r' ∈ s) && !decide ('*' ∈ s) && !decide (btick ∈ s) &&
  noHeadAux true s && noBulletAux true s && !hasLink s

/-- Adjacent runs are ordered: each run ends at or before the next begins. -/
def sortedRuns : List Run → Bool
  | [] => true
  | [_] => true
  | a :: b :: t => decide (a.stop ≤ b.start) && sortedRuns (b :: t)

/-! ## Identity lemmas under markup absence

Each scanner returns its input unchanged when the predicate it reacts to
never fires; since running out of fuel also returns the input, none of these
need a fuel bound. -/

/-! ## Content-instrumented expansion passes

To state the round-trip-of-content property, the two expansion scanners are
repeated with one addition: next to each emitted run they also record the
content whose append produced it (the dequeued label for a Link run, the
inner slice for a style run). The erasure lemmas below show they compute
exactly the same text and the same runs as the engine's passes. -/

/-- Instrumented `expandStyle`: identical control flow, but each run is
paired with the inner slice `afterOpen.take c` that was appended between
recording `start` and `stop`. -/
def expandStyleC : Nat → List Char → List Char → StyleKind → List Char →
    List Char → List Char → List Char × List (Run × List Char)
  | 0, _, _, _, _, out, src => (out ++ src, [])
  | fuel + 1, opn, cls, k, base, out, src =>
    match idxOf opn src with
    | none => (out ++ src, [])
    | some o =>
      let out1 := out ++ src.take o
      let afterOpen := src.drop (o + opn.length)
      match idxOf cls afterOpen with
      | none => expandStyleC fuel opn cls k base (out1 ++ opn) afterOpen
      | some c =>
        let out2 := out1 ++ afterOpen.take c
        let r := expandStyleC fuel opn cls k base out2 (afterOpen.drop (c + cls.length))
        (r.1, (⟨base.length + out1.length, base.length + out2.length, k, none⟩,
          afterOpen.take c) :: r.2)

/-- Instrumented link-marker expansion: each Link run is paired with the
label that was appended for it. -/
def linkExpandGoC : Nat → List (List Char × List Char) → List Char → List Char →
    List Char × List (Run × List Char)
  | 0, _, acc, src => (acc ++ src, [])
  | _ + 1, _, acc, [] => (acc, [])
  | fuel + 1, q, acc, c :: rest =>
    if c = sOpen then
      if rest.contains sClose then
        let label := rest.takeWhile (· ≠ sClose)
        let rest2 := rest.drop (label.length + 1)
        match q with
        | (_, url) :: q2 =>
          let r := linkExpandGoC fuel q2 (acc ++ label) rest2
          (r.1, (⟨acc.length, acc.length + label.length, .link, some url⟩, label) :: r.2)
        | [] => linkExpandGoC fuel [] (acc ++ label) rest2
      else linkExpandGoC fuel q (acc ++ [c]) rest
    else linkExpandGoC fuel q (acc ++ [c]) rest

/-- A recorded (run, content) pair is consistent with the text `txt`: the
offsets fit inside `txt` and the slice [start, stop) of `txt` is exactly
the recorded content. -/
def contentOk (txt : List Char) (p : Run × List Char) : Bool :=
  decide (p.1.stop ≤ txt.length) &&
  decide ((txt.drop p.1.start).take (p.1.stop - p.1.start) = p.2)

/-- Instrumented sentinel-resolution stage of part_001. -/
def stageLinkCA (s : List Char) : List Char × List (Run × List Char) :=
  linkExpandGoC (markedA s).length (preLink s).2 [] (markedA s)

/-- Instrumented bold marker expansion stage of part_001. -/
def stageBoldCA (s : List Char) : List Char × List (Run × List Char) :=
  expandStyleC (stageLinkA s).1.length [bOpen] [bClose] .bold [] [] (stageLinkA s).1

/-- Instrumented italic marker expansion stage of part_001. -/
def stageItalicCA (s : List Char) : List Char × List (Run × List Char) :=
  expandStyleC (stageBoldA s).1.length [iOpen] [iClose] .italic [] [] (stageBoldA s).1

/-- Instrumented code marker expansion stage of part_001. -/
def stageCodeCA (s : List Char) : List Char × List (Run × List Char) :=
  expandStyleC (stageItalicA s).1.length [cOpen] [cClose] .code [] [] (stageItalicA s).1

/-- Instrumented sentinel-resolution stage of part_002. -/
def stageLinkCB (s : List Char) : List Char × List (Run × List Char) :=
  linkExpandGoC (preLink s).1.length (preLink s).2 [] (preLink s).1

/-- Instrumented bold stage of part_002. -/
def stageBoldCB (s : List Char) : List Char × List (Run × List Char) :=
  expandStyleC (stageLinkB s).1.length ['*', '*'] ['*', '*'] .bold [] [] (stageLinkB s).1

/-- Instrumented italic stage of part_002. -/
def stageItalicCB (s : List Char) : List Char × List (Run × List Char) :=
  expandStyleC (stageBoldB s).1.length ['*'] ['*'] .italic [] [] (stageBoldB s).1

/-- Instrumented code stage of part_002. -/
def stageCodeCB (s : List Char) : List Char × List (Run × List Char) :=
  expandStyleC (stageItalicB s).1.length [btick] [btick] .code [] [] (stageItalicB s).1

theorem normalizeNewlines_id : ∀ s : List Char, '\r' ∉ s → normalizeNewlines s = s := by
  intro s
  induction s with
  | nil => intro; rfl
  | cons c cs ih =>
    intro h
    have hc : c ≠ '\r' := fun hc => h (hc ▸ List.mem_cons_self c cs)
    have hcs : '\r' ∉ cs := fun hm => h (List.mem_cons_of_mem c hm)
    cases cs with
    | nil => simp only [normalizeNewlines, if_neg hc]
    | cons d ds => simp only [normalizeNewlines, if_neg hc, ih hcs]

theorem tryHeading_none_of_ne (c : Char) (cs : List Char) (hc : c ≠ '#') :
    tryHeading (c :: cs) = none := by
  simp [tryHeading, hashCount, hc]

theorem noHeadAux_cons {a : Bool} {c : Char} {cs : List Char}
    (h : noHeadAux a (c :: cs) = true) :
    (a = true → c ≠ '#') ∧ noHeadAux (isLineTerm c) cs = true := by
  simp only [noHeadAux, Bool.and_eq_true, Bool.not_eq_true'] at h
  refine ⟨fun ha hc => ?_, h.2⟩
  subst ha hc
  simp at h

theorem headingGo_id : ∀ (fuel : Nat) (a : Bool) (cs : List Char),
    noHeadAux a cs = true → headingGo fuel a cs = cs := by
  intro fuel
  induction fuel with
  | zero => intro a cs _; rfl
  | succ fuel ih =>
    intro a cs h
    cases cs with
    | nil => rfl
    | cons c cs =>
      obtain ⟨hc, hrest⟩ := noHeadAux_cons h
      cases a with
      | false => simp only [headingGo, Bool.false_eq_true, if_false, ih _ _ hrest]
      | true =>
        simp only [headingGo, if_true, tryHeading_none_of_ne c cs (hc rfl),
          ih _ _ hrest]

theorem headingStripGo_id : ∀ (fuel : Nat) (a : Bool) (cs : List Char),
    noHeadAux a cs = true → headingStripGo fuel a cs = cs := by
  intro fuel
  induction fuel with
  | zero => intro a cs _; rfl
  | succ fuel ih =>
    intro a cs h
    cases cs with
    | nil => rfl
    | cons c cs =>
      obtain ⟨hc, hrest⟩ := noHeadAux_cons h
      cases a with
      | false => simp only [headingStripGo, Bool.false_eq_true, if_false, ih _ _ hrest]
      | true =>
        simp only [headingStripGo, if_true, tryHeading_none_of_ne c cs (hc rfl),
          ih _ _ hrest]

theorem takeWhile_len_zero {cs : List Char} (h : headSpace cs = false) :
    (cs.takeWhile isJsSpace).length = 0 := by
  cases cs with
  | nil => rfl
  | cons d ds =>
    simp only [headSpace] at h
    simp [List.takeWhile_cons, h]

theorem noBulletAux_cons {a : Bool} {c : Char} {cs : List Char}
    (h : noBulletAux a (c :: cs) = true) :
    (a = true → (c = '-' || c = '*') = true → headSpace cs = false) ∧
    noBulletAux (if isLineTerm c then true else a && isJsSpace c) cs = true := by
  simp only [noBulletAux, Bool.and_eq_true, Bool.not_eq_true'] at h
  refine ⟨fun ha hm => ?_, h.2⟩
  have h1 := h.1
  rw [ha, hm] at h1
  simpa using h1

theorem noBulletAux_mono : ∀ {cs : List Char},
    noBulletAux true cs = true → noBulletAux false cs = true := by
  intro cs
  induction cs with
  | nil => intro _; rfl
  | cons c cs ih =>
    intro h
    obtain ⟨_, hrest⟩ := noBulletAux_cons h
    by_cases hl : isLineTerm c = true
    · simp only [noBulletAux, hl, if_true, Bool.false_and, Bool.not_false, Bool.true_and]
      simpa [hl] using hrest
    · have hl' : isLineTerm c = false := by simpa using hl
      simp only [noBulletAux, hl', Bool.false_and, Bool.not_false, Bool.true_and,
        Bool.false_eq_true, if_false]
      simp only [hl', Bool.false_eq_true, if_false, Bool.true_and] at hrest
      by_cases hws : isJsSpace c = true
      · exact ih (by rwa [hws] at hrest)
      · have hws' : isJsSpace c = false := by simpa using hws
        rwa [hws'] at hrest

theorem tryBullet_none : ∀ {cs : List Char},
    noBulletAux true cs = true → tryBullet cs = none := by
  intro cs
  induction cs with
  | nil => intro _; rfl
  | cons c cs ih =>
    intro h
    obtain ⟨hmark, hrest⟩ := noBulletAux_cons h
    by_cases hm : (c = '-' || c = '*') = true
    · have hhs : headSpace cs = false := hmark rfl hm
      simp [tryBullet, hm, takeWhile_len_zero hhs]
    · have hm' : (c = '-' || c = '*') = false := by simpa using hm
      by_cases hws : isJsSpace c = true
      · have hst : noBulletAux true cs = true := by
          by_cases hl : isLineTerm c = true
          · simpa [hl] using hrest
          · have hl' : isLineTerm c = false := by simpa using hl
            simp only [hl', Bool.false_eq_true, if_false, Bool.true_and, hws] at hrest
            exact hrest
        simp [tryBullet, hm', hws, ih hst]
      · have hws' : isJsSpace c = false := by simpa using hws
        simp [tryBullet, hm', hws']

theorem bulletGo_id : ∀ (fuel : Nat) (a : Bool) (cs : List Char),
    noBulletAux a cs = true → bulletGo fuel a cs = cs := by
  intro fuel
  induction fuel with
  | zero => intro a cs _; rfl
  | succ fuel ih =>
    intro a cs h
    cases cs with
    | nil => rfl
    | cons c cs =>
      obtain ⟨_, hrest⟩ := noBulletAux_cons h
      have hnext : noBulletAux (isLineTerm c) cs = true := by
        by_cases hl : isLineTerm c = true
        · rw [hl]
          simpa [hl] using hrest
        · have hl' : isLineTerm c = false := by simpa using hl
          rw [hl']
          simp only [hl', Bool.false_eq_true, if_false] at hrest
          cases a with
          | false => simpa using hrest
          | true =>
            rw [Bool.true_and] at hrest
            by_cases hws : isJsSpace c = true
            · exact noBulletAux_mono (by rwa [hws] at hrest)
            · have hws' : isJsSpace c = false := by simpa using hws
              rwa [hws'] at hrest
      cases a with
      | false => simp only [bulletGo, Bool.false_eq_true, if_false, ih _ _ hnext]
      | true =>
        simp only [bulletGo, if_true, tryBullet_none h, ih _ _ hnext]

theorem linkGo_id : ∀ (fuel : Nat) (cs : List Char),
    hasLink cs = false → linkGo fuel cs = (cs, []) := by
  intro fuel
  induction fuel with
  | zero => intro cs _; rfl
  | succ fuel ih =>
    intro cs h
    cases cs with
    | nil => rfl
    | cons c cs =>
      simp only [hasLink, Bool.or_eq_false_iff] at h
      have h1 : tryLink (c :: cs) = none := by
        cases htl : tryLink (c :: cs) with
        | none => rfl
        | some v => rw [htl] at h; simp at h
      simp only [linkGo, h1, ih cs h.2]

theorem linkStripGo_id : ∀ (fuel : Nat) (cs : List Char),
    hasLink cs = false → linkStripGo fuel cs = cs := by
  intro fuel
  induction fuel with
  | zero => intro cs _; rfl
  | succ fuel ih =>
    intro cs h
    cases cs with
    | nil => rfl
    | cons c cs =>
      simp only [hasLink, Bool.or_eq_false_iff] at h
      have h1 : tryLink (c :: cs) = none := by
        cases htl : tryLink (c :: cs) with
        | none => rfl
        | some v => rw [htl] at h; simp at h
      simp only [linkStripGo, h1, ih cs h.2]

theorem boldGo_cons_ne (fuel : Nat) (c : Char) (cs : List Char) (hc : c ≠ '*') :
    boldGo (fuel + 1) (c :: cs) = c :: boldGo fuel cs := by
  rw [boldGo.eq_def]
  split
  · rename_i heq
    exact absurd heq (Nat.succ_ne_zero fuel)
  · rename_i heq
    exact absurd heq (List.cons_ne_nil c cs)
  · rename_i heq
    injection heq with h1 h2
    exact absurd h1 hc
  · rename_i heq1 heq
    injection heq1 with hf
    injection heq with h1 h2
    subst hf
    subst h1
    subst h2
    rfl

theorem boldGo_id : ∀ (fuel : Nat) (cs : List Char),
    '*' ∉ cs → boldGo fuel cs = cs := by
  intro fuel
  induction fuel with
  | zero => intro cs _; rfl
  | succ fuel ih =>
    intro cs h
    cases cs with
    | nil => rfl
    | cons c cs =>
      have hcs : '*' ∉ cs := fun hm => h (List.mem_cons_of_mem c hm)
      have hc : c ≠ '*' := fun hc => h (hc ▸ List.mem_cons_self c cs)
      rw [boldGo_cons_ne fuel c cs hc, ih cs hcs]

theorem boldStripGo_cons_ne (fuel : Nat) (c : Char) (cs : List Char) (hc : c ≠ '*') :
    boldStripGo (fuel + 1) (c :: cs) = c :: boldStripGo fuel cs := by
  rw [boldStripGo.eq_def]
  split
  · rename_i heq
    exact absurd heq (Nat.succ_ne_zero fuel)
  · rename_i heq
    exact absurd heq (List.cons_ne_nil c cs)
  · rename_i heq
    injection heq with h1 h2
    exact absurd h1 hc
  · rename_i heq1 heq
    injection heq1 with hf
    injection heq with h1 h2
    subst hf
    subst h1
    subst h2
    rfl

theorem boldStripGo_id : ∀ (fuel : Nat) (cs : List Char),
    '*' ∉ cs → boldStripGo fuel cs = cs := by
  intro fuel
  induction fuel with
  | zero => intro cs _; rfl
  | succ fuel ih =>
    intro cs h
    cases cs with
    | nil => rfl
    | cons c cs =>
      have hcs : '*' ∉ cs := fun hm => h (List.mem_cons_of_mem c hm)
      have hc : c ≠ '*' := fun hc => h (hc ▸ List.mem_cons_self c cs)
      rw [boldStripGo_cons_ne fuel c cs hc, ih cs hcs]

theorem italicGo_cons_ne (fuel : Nat) (c : Char) (cs : List Char) (hc : c ≠ '*') :
    italicGo (fuel + 1) (c :: cs) = c :: italicGo fuel cs := by
  rw [italicGo.eq_def]
  split
  · rename_i heq
    exact absurd heq (Nat.succ_ne_zero fuel)
  · rename_i heq
    exact absurd heq (List.cons_ne_nil c cs)
  · rename_i heq
    injection heq with h1 h2
    exact absurd h1 hc
  · rename_i heq1 heq
    injection heq1 with hf
    injection heq with h1 h2
    subst hf
    subst h1
    subst h2
    rfl

theorem italicGo_id : ∀ (fuel : Nat) (cs : List Char),
    '*' ∉ cs → italicGo fuel cs = cs := by
  intro fuel
  induction fuel with
  | zero => intro cs _; rfl
  | succ fuel ih =>
    intro cs h
    cases cs with
    | nil => rfl
    | cons c cs =>
      have hcs : '*' ∉ cs := fun hm => h (List.mem_cons_of_mem c hm)
      have hc : c ≠ '*' := fun hc => h (hc ▸ List.mem_cons_self c cs)
      rw [italicGo_cons_ne fuel c cs hc, ih cs hcs]

theorem italicStripGo_cons_ne (fuel : Nat) (c : Char) (cs : List Char) (hc : c ≠ '*') :
    italicStripGo (fuel + 1) (c :: cs) = c :: italicStripGo fuel cs := by
  rw [italicStripGo.eq_def]
  split
  · rename_i heq
    exact absurd heq (Nat.succ_ne_zero fuel)
  · rename_i heq
    exact absurd heq (List.cons_ne_nil c cs)
  · rename_i heq
    injection heq with h1 h2
    exact absurd h1 hc
  · rename_i heq1 heq
    injection heq1 with hf
    injection heq with h1 h2
    subst hf
    subst h1
    subst h2
    rfl

theorem italicStripGo_id : ∀ (fuel : Nat) (cs : List Char),
    '*' ∉ cs → italicStripGo fuel cs = cs := by
  intro fuel
  induction fuel with
  | zero => intro cs _; rfl
  | succ fuel ih =>
    intro cs h
    cases cs with
    | nil => rfl
    | cons c cs =>
      have hcs : '*' ∉ cs := fun hm => h (List.mem_cons_of_mem c hm)
      have hc : c ≠ '*' := fun hc => h (hc ▸ List.mem_cons_self c cs)
      rw [italicStripGo_cons_ne fuel c cs hc, ih cs hcs]

theorem codeGo_id : ∀ (fuel : Nat) (cs : List Char),
    btick ∉ cs → codeGo fuel cs = cs := by
  intro fuel
  induction fuel with
  | zero => intro cs _; rfl
  | succ fuel ih =>
    intro cs h
    cases cs with
    | nil => rfl
    | cons c cs =>
      have hcs : btick ∉ cs := fun hm => h (List.mem_cons_of_mem c hm)
      have hc : c ≠ btick := fun hc => h (hc ▸ List.mem_cons_self c cs)
      simp only [codeGo, if_neg hc]
      rw [ih cs hcs]

theorem codeStripGo_id : ∀ (fuel : Nat) (cs : List Char),
    btick ∉ cs → codeStripGo fuel cs = cs := by
  intro fuel
  induction fuel with
  | zero => intro cs _; rfl
  | succ fuel ih =>
    intro cs h
    cases cs with
    | nil => rfl
    | cons c cs =>
      have hcs : btick ∉ cs := fun hm => h (List.mem_cons_of_mem c hm)
      have hc : c ≠ btick := fun hc => h (hc ▸ List.mem_cons_self c cs)
      simp only [codeStripGo, if_neg hc]
      rw [ih cs hcs]

theorem linkExpandGo_id : ∀ (fuel : Nat) (q : List (List Char × List Char))
    (acc src : List Char), sOpen ∉ src →
    linkExpandGo fuel q acc src = (acc ++ src, []) := by
  intro fuel
  induction fuel with
  | zero => intro q acc src _; rfl
  | succ fuel ih =>
    intro q acc src h
    cases src with
    | nil => simp [linkExpandGo]
    | cons c rest =>
      have hrest : sOpen ∉ rest := fun hm => h (List.mem_cons_of_mem c hm)
      have hc : c ≠ sOpen := fun hc => h (hc ▸ List.mem_cons_self c rest)
      simp only [linkExpandGo, if_neg hc, ih _ _ _ hrest, List.append_assoc,
        List.singleton_append]

theorem idxOf_cons_none {c : Char} {tok src : List Char} (h : c ∉ src) :
    idxOf (c :: tok) src = none := by
  induction src with
  | nil => rfl
  | cons d ds ih =>
    have hds : c ∉ ds := fun hm => h (List.mem_cons_of_mem d hm)
    have hc : c ≠ d := fun hc => h (hc ▸ List.mem_cons_self d ds)
    simp only [idxOf]
    rw [if_neg (by
      simp only [List.isPrefixOf_cons₂]
      intro hpre
      simp only [Bool.and_eq_true, beq_iff_eq] at hpre
      exact hc hpre.1), ih hds]
    rfl

theorem expandStyle_id (fuel : Nat) (opn cls : List Char) (k : StyleKind)
    (base out src : List Char) (h : idxOf opn src = none) :
    expandStyle fuel opn cls k base out src = (out ++ src, []) := by
  cases fuel with
  | zero => rfl
  | succ fuel => simp only [expandStyle, h]

theorem noMd_spec {m : List Char} (h : noMd m = true) :
    '*' ∉ m ∧ btick ∉ m ∧ noHeadAux true m = true ∧ noBulletAux true m = true ∧
    hasLink m = false ∧ sOpen ∉ m ∧ sClose ∉ m ∧ bOpen ∉ m ∧ bClose ∉ m ∧
    iOpen ∉ m ∧ iClose ∉ m ∧ cOpen ∉ m ∧ cClose ∉ m := by
  simp only [noMd, Bool.and_eq_true, Bool.not_eq_true', decide_eq_false_iff_not] at h
  exact ⟨h.1.1.1.1.1.1.1.1.1.1.1.1, h.1.1.1.1.1.1.1.1.1.1.1.2,
    h.1.1.1.1.1.1.1.1.1.1.2, h.1.1.1.1.1.1.1.1.1.2, h.1.1.1.1.1.1.1.1.2,
    h.1.1.1.1.1.1.1.2, h.1.1.1.1.1.1.2, h.1.1.1.1.1.2, h.1.1.1.1.2,
    h.1.1.1.2, h.1.1.2, h.1.2, h.2⟩

theorem lineNormalize_eq_of_noMd {s : List Char}
    (hhead : noHeadAux true (normalizeNewlines s) = true)
    (hbull : noBulletAux true (normalizeNewlines s) = true) :
    lineNormalize s = normalizeNewlines s := by
  simp only [lineNormalize, headingPass]
  rw [headingGo_id _ _ _ hhead, bulletGo_id _ _ _ hbull]

/-- C4: on an input whose normalized form contains no markup delimiters
(and none of the reserved sentinel characters, absent by the §3/§9 input
assumption), both styled builders return the newline-normalized input as the
plain text, with an empty run list. -/
theorem c4_no_markup_roundtrip (s : List Char)
    (h : noMd (normalizeNewlines s) = true) :
    buildRichTextFromMarkdownA s = (normalizeNewlines s, []) ∧
    buildRichTextFromMarkdownB s = (normalizeNewlines s, []) := by
  obtain ⟨hstar, hbt, hhead, hbull, hlink, hs0, _, hb0, _, hi0, _, hc0, _⟩ := noMd_spec h
  have hnorm : lineNormalize s = normalizeNewlines s := lineNormalize_eq_of_noMd hhead hbull
  have hpre : preLink s = (normalizeNewlines s, []) := by
    simp only [preLink, hnorm]
    exact linkGo_id _ _ hlink
  have hmarked : markedA s = normalizeNewlines s := by
    simp only [markedA, hpre]
    rw [boldGo_id _ _ hstar, italicGo_id _ _ hstar, codeGo_id _ _ hbt]
  have hLA : stageLinkA s = (normalizeNewlines s, []) := by
    simp only [stageLinkA, hmarked, hpre]
    rw [linkExpandGo_id _ _ _ _ hs0]
    rfl
  have hBA : stageBoldA s = (normalizeNewlines s, []) := by
    simp only [stageBoldA, hLA]
    rw [expandStyle_id _ _ _ _ _ _ _ (idxOf_cons_none hb0)]
    rfl
  have hIA : stageItalicA s = (normalizeNewlines s, []) := by
    simp only [stageItalicA, hBA]
    rw [expandStyle_id _ _ _ _ _ _ _ (idxOf_cons_none hi0)]
    rfl
  have hCA : stageCodeA s = (normalizeNewlines s, []) := by
    simp only [stageCodeA, hIA]
    rw [expandStyle_id _ _ _ _ _ _ _ (idxOf_cons_none hc0)]
    rfl
  have hLB : stageLinkB s = (normalizeNewlines s, []) := by
    simp only [stageLinkB, hpre]
    rw [linkExpandGo_id _ _ _ _ hs0]
    rfl
  have hBB : stageBoldB s = (normalizeNewlines s, []) := by
    simp only [stageBoldB, hLB]
    rw [expandStyle_id _ _ _ _ _ _ _ (idxOf_cons_none hstar)]
    rfl
  have hIB : stageItalicB s = (normalizeNewlines s, []) := by
    simp only [stageItalicB, hBB]
    rw [expandStyle_id _ _ _ _ _ _ _ (idxOf_cons_none hstar)]
    rfl
  have hCB : stageCodeB s = (normalizeNewlines s, []) := by
    simp only [stageCodeB, hIB]
    rw [expandStyle_id _ _ _ _ _ _ _ (idxOf_cons_none hbt)]
    rfl
  constructor
  · simp [buildRichTextFromMarkdownA, hLA, hBA, hIA, hCA]
  · simp [buildRichTextFromMarkdownB, hLB, hBB, hIB, hCB]

/-- Witness for C4 at the concrete input "hello\r\nworld": the hypothesis is
satisfied and the compiled outputs are the normalized text with no runs. -/
theorem c4_no_markup_roundtrip_witness :
    noMd (normalizeNewlines ("hello\r\nworld".data)) = true ∧
    buildRichTextFromMarkdownA ("hello\r\nworld".data) =
      (normalizeNewlines ("hello\r\nworld".data), []) ∧
    buildRichTextFromMarkdownB ("hello\r\nworld".data) =
      (normalizeNewlines ("hello\r\nworld".data), []) :=
  ⟨by decide, (c4_no_markup_roundtrip ("hello\r\nworld".data) (by decide)).1,
    (c4_no_markup_roundtrip ("hello\r\nworld".data) (by decide)).2⟩

theorem plainNoMarkup_spec {m : List Char} (h : plainNoMarkup m = true) :
    '\r' ∉ m ∧ '*' ∉ m ∧ btick ∉ m ∧ noHeadAux true m = true ∧
    noBulletAux true m = true ∧ hasLink m = false := by
  simp only [plainNoMarkup, Bool.and_eq_true, Bool.not_eq_true',
    decide_eq_false_iff_not] at h
  exact ⟨h.1.1.1.1.1, h.1.1.1.1.2, h.1.1.1.2, h.1.1.2, h.1.2, h.2⟩

theorem stripMarkdown_id {m : List Char} (h : plainNoMarkup m = true) :
    stripMarkdown m = m := by
  obtain ⟨hr, hstar, hbt, hhead, hbull, hlink⟩ := plainNoMarkup_spec h
  simp only [stripMarkdown]
  rw [normalizeNewlines_id _ hr, headingStripGo_id _ _ _ hhead,
    linkStripGo_id _ _ hlink, boldStripGo_id _ _ hstar,
    italicStripGo_id _ _ hstar, codeStripGo_id _ _ hbt, bulletGo_id _ _ _ hbull]

/-- C7 counterexample: `stripMarkdown_` is not idempotent. On "*#* x" the
italic pass synthesizes the heading line "# x", which a second application
unwraps to "x", so running the reducer twice differs from running it once. -/
theorem c7_strip_idempotent_counterexample :
    stripMarkdown (stripMarkdown ("*#* x".data)) ≠ stripMarkdown ("*#* x".data) := by
  decide

/-- C7 amended: `stripMarkdown_` is idempotent on every input whose first
output is free of the markup the reducer reacts to (no CR, no asterisk, no
backtick, no line starting with `#`, no bullet match, no link match); in
general a pass can synthesize new markup for an earlier pass, so a second
application may differ (see the counterexample). -/
theorem c7_strip_idempotent_amended (s : List Char)
    (h : plainNoMarkup (stripMarkdown s) = true) :
    stripMarkdown (stripMarkdown s) = stripMarkdown s :=
  stripMarkdown_id h

/-- Witness for the amended C7 at the concrete input "**a**". -/
theorem c7_strip_idempotent_witness :
    plainNoMarkup (stripMarkdown ("**a**".data)) = true ∧
    stripMarkdown (stripMarkdown ("**a**".data)) = stripMarkdown ("**a**".data) :=
  ⟨by decide, c7_strip_idempotent_amended ("**a**".data) (by decide)⟩

theorem expandStyle_spec (fuel : Nat) (opn cls : List Char) (k : StyleKind)
    (base : List Char) : ∀ (out src : List Char),
    (∃ ext, (expandStyle fuel opn cls k base out src).1 = out ++ ext) ∧
    (∀ q ∈ (expandStyle fuel opn cls k base out src).2,
      q.kind = k ∧ q.url = none ∧
      base.length + out.length ≤ q.start ∧ q.start ≤ q.stop ∧
      q.stop ≤ base.length + (expandStyle fuel opn cls k base out src).1.length) ∧
    sortedRuns (expandStyle fuel opn cls k base out src).2 = true := by
  induction fuel with
  | zero =>
    intro out src
    exact ⟨⟨src, rfl⟩, fun q hq => absurd hq (List.not_mem_nil q), rfl⟩
  | succ fuel ih =>
    intro out src
    cases hidx : idxOf opn src with
    | none =>
      simp only [expandStyle, hidx]
      exact ⟨⟨src, rfl⟩, fun q hq => absurd hq (List.not_mem_nil q), rfl⟩
    | some o =>
      cases hcls : idxOf cls (src.drop (o + opn.length)) with
      | none =>
        simp only [expandStyle, hidx, hcls]
        obtain ⟨⟨ext, hext⟩, hruns, hsort⟩ :=
          ih (out ++ src.take o ++ opn) (src.drop (o + opn.length))
        refine ⟨⟨src.take o ++ (opn ++ ext), by rw [hext]; simp [List.append_assoc]⟩,
          ?_, hsort⟩
        intro q hq
        obtain ⟨hk, hu, hlb, hse, hub⟩ := hruns q hq
        refine ⟨hk, hu, le_trans ?_ hlb, hse, hub⟩
        simp only [List.length_append]
        omega
      | some c =>
        simp only [expandStyle, hidx, hcls]
        obtain ⟨⟨ext, hext⟩, hruns, hsort⟩ :=
          ih (out ++ src.take o ++ (src.drop (o + opn.length)).take c)
            ((src.drop (o + opn.length)).drop (c + cls.length))
        refine ⟨⟨src.take o ++ ((src.drop (o + opn.length)).take c ++ ext),
          by rw [hext]; simp [List.append_assoc]⟩, ?_, ?_⟩
        · intro q hq
          rcases List.mem_cons.mp hq with hq0 | hqr
          · subst hq0
            refine ⟨rfl, rfl, ?_, ?_, ?_⟩
            · simp only [List.length_append]
              omega
            · simp only [List.length_append]
              omega
            · rw [hext]
              simp only [List.length_append]
              omega
          · obtain ⟨hk, hu, hlb, hse, hub⟩ := hruns q hqr
            refine ⟨hk, hu, le_trans ?_ hlb, hse, hub⟩
            simp only [List.length_append]
            omega
        · cases hr2 : (expandStyle fuel opn cls k base
              (out ++ src.take o ++ (src.drop (o + opn.length)).take c)
              ((src.drop (o + opn.length)).drop (c + cls.length))).2 with
          | nil => rfl
          | cons q1 t =>
            have hq1 := hruns q1 (by rw [hr2]; exact List.mem_cons_self q1 t)
            simp only [sortedRuns, Bool.and_eq_true, decide_eq_true_eq]
            refine ⟨?_, by rw [← hr2]; exact hsort⟩
            have := hq1.2.2.1
            simp only [List.length_append] at this ⊢
            omega

theorem linkExpandGo_spec (fuel : Nat) :
    ∀ (q : List (List Char × List Char)) (acc src : List Char),
    (∃ ext, (linkExpandGo fuel q acc src).1 = acc ++ ext) ∧
    (∀ r ∈ (linkExpandGo fuel q acc src).2,
      r.kind = .link ∧ (∃ u, r.url = some u) ∧
      acc.length ≤ r.start ∧ r.start ≤ r.stop ∧
      r.stop ≤ (linkExpandGo fuel q acc src).1.length) ∧
    sortedRuns (linkExpandGo fuel q acc src).2 = true := by
  induction fuel with
  | zero =>
    intro q acc src
    exact ⟨⟨src, rfl⟩, fun r hr => absurd hr (List.not_mem_nil r), rfl⟩
  | succ fuel ih =>
    intro q acc src
    cases src with
    | nil =>
      exact ⟨⟨[], by simp [linkExpandGo]⟩,
        fun r hr => absurd hr (List.not_mem_nil r), rfl⟩
    | cons c rest =>
      by_cases hc : c = sOpen
      · by_cases hcl : rest.contains sClose = true
        · cases q with
          | nil =>
            simp only [linkExpandGo, if_pos hc, hcl, if_true]
            obtain ⟨⟨ext, hext⟩, hruns, hsort⟩ :=
              ih [] (acc ++ rest.takeWhile (· ≠ sClose))
                (rest.drop ((rest.takeWhile (· ≠ sClose)).length + 1))
            refine ⟨⟨rest.takeWhile (· ≠ sClose) ++ ext,
              by rw [hext]; simp [List.append_assoc]⟩, ?_, hsort⟩
            intro r hr
            obtain ⟨hk, hu, hlb, hse, hub⟩ := hruns r hr
            refine ⟨hk, hu, le_trans ?_ hlb, hse, hub⟩
            simp only [List.length_append]
            omega
          | cons p q2 =>
            simp only [linkExpandGo, if_pos hc, hcl, if_true]
            obtain ⟨⟨ext, hext⟩, hruns, hsort⟩ :=
              ih q2 (acc ++ rest.takeWhile (· ≠ sClose))
                (rest.drop ((rest.takeWhile (· ≠ sClose)).length + 1))
            refine ⟨⟨rest.takeWhile (· ≠ sClose) ++ ext,
              by rw [hext]; simp [List.append_assoc]⟩, ?_, ?_⟩
            · intro r hr
              rcases List.mem_cons.mp hr with hr0 | hrr
              · subst hr0
                refine ⟨rfl, ⟨p.2, rfl⟩, Nat.le_refl _, Nat.le_add_right _ _, ?_⟩
                show acc.length + (rest.takeWhile (· ≠ sClose)).length ≤ _
                rw [hext]
                simp only [List.length_append]
                omega
              · obtain ⟨hk, hu, hlb, hse, hub⟩ := hruns r hrr
                refine ⟨hk, hu, le_trans ?_ hlb, hse, hub⟩
                simp only [List.length_append]
                omega
            · cases hr2 : (linkExpandGo fuel q2 (acc ++ rest.takeWhile (· ≠ sClose))
                  (rest.drop ((rest.takeWhile (· ≠ sClose)).length + 1))).2 with
              | nil => rfl
              | cons r1 t =>
                have hr1 := hruns r1 (by rw [hr2]; exact List.mem_cons_self r1 t)
                simp only [sortedRuns, Bool.and_eq_true, decide_eq_true_eq]
                refine ⟨?_, by rw [← hr2]; exact hsort⟩
                have := hr1.2.2.1
                simp only [List.length_append] at this ⊢
                omega
        · simp only [linkExpandGo, if_pos hc, hcl, if_false, Bool.false_eq_true]
          obtain ⟨⟨ext, hext⟩, hruns, hsort⟩ := ih q (acc ++ [c]) rest
          refine ⟨⟨c :: ext, by rw [hext]; simp⟩, ?_, hsort⟩
          intro r hr
          obtain ⟨hk, hu, hlb, hse, hub⟩ := hruns r hr
          refine ⟨hk, hu, le_trans ?_ hlb, hse, hub⟩
          simp only [List.length_append]
          omega
      · simp only [linkExpandGo, if_neg hc]
        obtain ⟨⟨ext, hext⟩, hruns, hsort⟩ := ih q (acc ++ [c]) rest
        refine ⟨⟨c :: ext, by rw [hext]; simp⟩, ?_, hsort⟩
        intro r hr
        obtain ⟨hk, hu, hlb, hse, hub⟩ := hruns r hr
        refine ⟨hk, hu, le_trans ?_ hlb, hse, hub⟩
        simp only [List.length_append]
        omega

theorem stageLinkA_runs {s : List Char} {r : Run} (hr : r ∈ (stageLinkA s).2) :
    r.kind = .link ∧ r.start ≤ r.stop ∧ r.stop ≤ (stageLinkA s).1.length := by
  obtain ⟨_, hruns, _⟩ :=
    linkExpandGo_spec (markedA s).length (preLink s).2 [] (markedA s)
  obtain ⟨hk, _, _, hse, hub⟩ := hruns r hr
  exact ⟨hk, hse, hub⟩

theorem stageBoldA_runs {s : List Char} {r : Run} (hr : r ∈ (stageBoldA s).2) :
    r.kind = .bold ∧ r.start ≤ r.stop ∧ r.stop ≤ (stageBoldA s).1.length := by
  obtain ⟨_, hruns, _⟩ := expandStyle_spec (stageLinkA s).1.length [bOpen] [bClose]
    .bold [] [] (stageLinkA s).1
  obtain ⟨hk, _, _, hse, hub⟩ := hruns r hr
  exact ⟨hk, hse, by simpa using hub⟩

theorem stageItalicA_runs {s : List Char} {r : Run} (hr : r ∈ (stageItalicA s).2) :
    r.kind = .italic ∧ r.start ≤ r.stop ∧ r.stop ≤ (stageItalicA s).1.length := by
  obtain ⟨_, hruns, _⟩ := expandStyle_spec (stageBoldA s).1.length [iOpen] [iClose]
    .italic [] [] (stageBoldA s).1
  obtain ⟨hk, _, _, hse, hub⟩ := hruns r hr
  exact ⟨hk, hse, by simpa using hub⟩

theorem stageCodeA_runs {s : List Char} {r : Run} (hr : r ∈ (stageCodeA s).2) :
    r.kind = .code ∧ r.start ≤ r.stop ∧ r.stop ≤ (stageCodeA s).1.length := by
  obtain ⟨_, hruns, _⟩ := expandStyle_spec (stageItalicA s).1.length [cOpen] [cClose]
    .code [] [] (stageItalicA s).1
  obtain ⟨hk, _, _, hse, hub⟩ := hruns r hr
  exact ⟨hk, hse, by simpa using hub⟩

theorem stageLinkB_runs {s : List Char} {r : Run} (hr : r ∈ (stageLinkB s).2) :
    r.kind = .link ∧ r.start ≤ r.stop ∧ r.stop ≤ (stageLinkB s).1.length := by
  obtain ⟨_, hruns, _⟩ :=
    linkExpandGo_spec (preLink s).1.length (preLink s).2 [] (preLink s).1
  obtain ⟨hk, _, _, hse, hub⟩ := hruns r hr
  exact ⟨hk, hse, hub⟩

theorem stageBoldB_runs {s : List Char} {r : Run} (hr : r ∈ (stageBoldB s).2) :
    r.kind = .bold ∧ r.start ≤ r.stop ∧ r.stop ≤ (stageBoldB s).1.length := by
  obtain ⟨_, hruns, _⟩ := expandStyle_spec (stageLinkB s).1.length ['*', '*'] ['*', '*']
    .bold [] [] (stageLinkB s).1
  obtain ⟨hk, _, _, hse, hub⟩ := hruns r hr
  exact ⟨hk, hse, by simpa using hub⟩

theorem stageItalicB_runs {s : List Char} {r : Run} (hr : r ∈ (stageItalicB s).2) :
    r.kind = .italic ∧ r.start ≤ r.stop ∧ r.stop ≤ (stageItalicB s).1.length := by
  obtain ⟨_, hruns, _⟩ := expandStyle_spec (stageBoldB s).1.length ['*'] ['*']
    .italic [] [] (stageBoldB s).1
  obtain ⟨hk, _, _, hse, hub⟩ := hruns r hr
  exact ⟨hk, hse, by simpa using hub⟩

theorem stageCodeB_runs {s : List Char} {r : Run} (hr : r ∈ (stageCodeB s).2) :
    r.kind = .code ∧ r.start ≤ r.stop ∧ r.stop ≤ (stageCodeB s).1.length := by
  obtain ⟨_, hruns, _⟩ := expandStyle_spec (stageItalicB s).1.length [btick] [btick]
    .code [] [] (stageItalicB s).1
  obtain ⟨hk, _, _, hse, hub⟩ := hruns r hr
  exact ⟨hk, hse, by simpa using hub⟩

theorem mem_append_four {r : Run} {L B I C : List Run}
    (hr : r ∈ L ++ B ++ I ++ C) :
    r ∈ L ∨ r ∈ B ∨ r ∈ I ∨ r ∈ C := by
  rcases List.mem_append.mp hr with h | h
  · rcases List.mem_append.mp h with h | h
    · rcases List.mem_append.mp h with h | h
      · exact Or.inl h
      · exact Or.inr (Or.inl h)
    · exact Or.inr (Or.inr (Or.inl h))
  · exact Or.inr (Or.inr (Or.inr h))

theorem buildA_runs_cases {s : List Char} {r : Run}
    (hr : r ∈ (buildRichTextFromMarkdownA s).2) :
    r ∈ (stageLinkA s).2 ∨ r ∈ (stageBoldA s).2 ∨
    r ∈ (stageItalicA s).2 ∨ r ∈ (stageCodeA s).2 := by
  rw [buildRichTextFromMarkdownA] at hr
  exact mem_append_four hr

theorem buildB_runs_cases {s : List Char} {r : Run}
    (hr : r ∈ (buildRichTextFromMarkdownB s).2) :
    r ∈ (stageLinkB s).2 ∨ r ∈ (stageBoldB s).2 ∨
    r ∈ (stageItalicB s).2 ∨ r ∈ (stageCodeB s).2 := by
  rw [buildRichTextFromMarkdownB] at hr
  exact mem_append_four hr

theorem buildA_fst (s : List Char) :
    (buildRichTextFromMarkdownA s).1 = (stageCodeA s).1 := by
  rw [buildRichTextFromMarkdownA]

theorem buildB_fst (s : List Char) :
    (buildRichTextFromMarkdownB s).1 = (stageCodeB s).1 := by
  rw [buildRichTextFromMarkdownB]

/-- C9: every StyleRun emitted by either engine variant satisfies
start ≤ stop, for every input — each pass records `start` at the current
accumulator length, appends content, and records `stop` at the new length. -/
theorem c9_start_le_stop (s : List Char) :
    ((buildRichTextFromMarkdownA s).2.all fun r => decide (r.start ≤ r.stop)) = true ∧
    ((buildRichTextFromMarkdownB s).2.all fun r => decide (r.start ≤ r.stop)) = true := by
  constructor
  · rw [List.all_eq_true]
    intro r hr
    rw [decide_eq_true_eq]
    rcases buildA_runs_cases hr with h | h | h | h
    · exact (stageLinkA_runs h).2.1
    · exact (stageBoldA_runs h).2.1
    · exact (stageItalicA_runs h).2.1
    · exact (stageCodeA_runs h).2.1
  · rw [List.all_eq_true]
    intro r hr
    rw [decide_eq_true_eq]
    rcases buildB_runs_cases hr with h | h | h | h
    · exact (stageLinkB_runs h).2.1
    · exact (stageBoldB_runs h).2.1
    · exact (stageItalicB_runs h).2.1
    · exact (stageCodeB_runs h).2.1

/-- Witness for C9 at the input "**b**": the bold run of the compiled
result satisfies the bound. -/
theorem c9_start_le_stop_witness :
    ((buildRichTextFromMarkdownA ("**b**".data)).2.all fun r =>
      decide (r.start ≤ r.stop)) = true ∧
    ((buildRichTextFromMarkdownB ("**b**".data)).2.all fun r =>
      decide (r.start ≤ r.stop)) = true :=
  c9_start_le_stop ("**b**".data)

/-- C2 counterexample: on the nested input "***a***" the part_002 engine
emits a Bold run with stop = 2 while the final plain text is "a" of
length 1, violating stop ≤ len(plainText). -/
theorem c2_invariant_counterexample :
    ((buildRichTextFromMarkdownB ("***a***".data)).2.all fun r =>
      decide (r.start ≤ r.stop ∧
        r.stop ≤ (buildRichTextFromMarkdownB ("***a***".data)).1.length)) = false := by
  decide

/-- C2 amended: every emitted run satisfies 0 ≤ start ≤ stop, and runs of
the final (code) pass additionally satisfy stop ≤ len(plainText); runs of
earlier passes can exceed the final plain-text length when a later pass
removes delimiters before their recorded offsets (nested markup such as
"***a***"). -/
theorem c2_run_bounds_amended (s : List Char) :
    ((buildRichTextFromMarkdownA s).2.all fun r =>
      decide (r.start ≤ r.stop ∧ (r.kind = StyleKind.code →
        r.stop ≤ (buildRichTextFromMarkdownA s).1.length))) = true ∧
    ((buildRichTextFromMarkdownB s).2.all fun r =>
      decide (r.start ≤ r.stop ∧ (r.kind = StyleKind.code →
        r.stop ≤ (buildRichTextFromMarkdownB s).1.length))) = true := by
  constructor
  · rw [List.all_eq_true]
    intro r hr
    rw [decide_eq_true_eq]
    rcases buildA_runs_cases hr with h | h | h | h
    · refine ⟨(stageLinkA_runs h).2.1, fun hc => ?_⟩
      rw [(stageLinkA_runs h).1] at hc
      exact absurd hc (by decide)
    · refine ⟨(stageBoldA_runs h).2.1, fun hc => ?_⟩
      rw [(stageBoldA_runs h).1] at hc
      exact absurd hc (by decide)
    · refine ⟨(stageItalicA_runs h).2.1, fun hc => ?_⟩
      rw [(stageItalicA_runs h).1] at hc
      exact absurd hc (by decide)
    · refine ⟨(stageCodeA_runs h).2.1, fun _ => ?_⟩
      rw [buildA_fst]
      exact (stageCodeA_runs h).2.2
  · rw [List.all_eq_true]
    intro r hr
    rw [decide_eq_true_eq]
    rcases buildB_runs_cases hr with h | h | h | h
    · refine ⟨(stageLinkB_runs h).2.1, fun hc => ?_⟩
      rw [(stageLinkB_runs h).1] at hc
      exact absurd hc (by decide)
    · refine ⟨(stageBoldB_runs h).2.1, fun hc => ?_⟩
      rw [(stageBoldB_runs h).1] at hc
      exact absurd hc (by decide)
    · refine ⟨(stageItalicB_runs h).2.1, fun hc => ?_⟩
      rw [(stageItalicB_runs h).1] at hc
      exact absurd hc (by decide)
    · refine ⟨(stageCodeB_runs h).2.1, fun _ => ?_⟩
      rw [buildB_fst]
      exact (stageCodeB_runs h).2.2

/-- Witness for the amended C2 at the input "**b**". -/
theorem c2_run_bounds_amended_witness :
    ((buildRichTextFromMarkdownA ("**b**".data)).2.all fun r =>
      decide (r.start ≤ r.stop ∧ (r.kind = StyleKind.code →
        r.stop ≤ (buildRichTextFromMarkdownA ("**b**".data)).1.length))) = true ∧
    ((buildRichTextFromMarkdownB ("**b**".data)).2.all fun r =>
      decide (r.start ≤ r.stop ∧ (r.kind = StyleKind.code →
        r.stop ≤ (buildRichTextFromMarkdownB ("**b**".data)).1.length))) = true :=
  c2_run_bounds_amended ("**b**".data)

/-- C1 counterexample: on "***a***" the part_001 engine records a Bold run
over the marker-bearing inner text "\u0004a"; the later italic pass removes
those markers, so the recorded offsets [0,2) are no longer valid indices of
the final plain text "a" and cannot reproduce the recorded content. -/
theorem c1_roundtrip_counterexample :
    ((buildRichTextFromMarkdownA ("***a***".data)).2.all fun r =>
      decide (r.stop ≤ (buildRichTextFromMarkdownA ("***a***".data)).1.length)) = false := by
  decide


theorem stageLinkA_sorted (s : List Char) : sortedRuns (stageLinkA s).2 = true :=
  (linkExpandGo_spec (markedA s).length (preLink s).2 [] (markedA s)).2.2

theorem stageBoldA_sorted (s : List Char) : sortedRuns (stageBoldA s).2 = true :=
  (expandStyle_spec (stageLinkA s).1.length [bOpen] [bClose] .bold []
    [] (stageLinkA s).1).2.2

theorem stageItalicA_sorted (s : List Char) : sortedRuns (stageItalicA s).2 = true :=
  (expandStyle_spec (stageBoldA s).1.length [iOpen] [iClose] .italic []
    [] (stageBoldA s).1).2.2

theorem stageCodeA_sorted (s : List Char) : sortedRuns (stageCodeA s).2 = true :=
  (expandStyle_spec (stageItalicA s).1.length [cOpen] [cClose] .code []
    [] (stageItalicA s).1).2.2

theorem stageLinkB_sorted (s : List Char) : sortedRuns (stageLinkB s).2 = true :=
  (linkExpandGo_spec (preLink s).1.length (preLink s).2 [] (preLink s).1).2.2

theorem stageBoldB_sorted (s : List Char) : sortedRuns (stageBoldB s).2 = true :=
  (expandStyle_spec (stageLinkB s).1.length ['*', '*'] ['*', '*'] .bold []
    [] (stageLinkB s).1).2.2

theorem stageItalicB_sorted (s : List Char) : sortedRuns (stageItalicB s).2 = true :=
  (expandStyle_spec (stageBoldB s).1.length ['*'] ['*'] .italic []
    [] (stageBoldB s).1).2.2

theorem stageCodeB_sorted (s : List Char) : sortedRuns (stageCodeB s).2 = true :=
  (expandStyle_spec (stageItalicB s).1.length [btick] [btick] .code []
    [] (stageItalicB s).1).2.2

/-- C8: in both variants the result's run list is the sentinel-resolution
(Link) runs, then the bold runs, then the italic runs, then the code runs,
each group homogeneous in kind and ordered left to right (each run ends at
or before the next of its group begins). -/
theorem c8_run_order (s : List Char) :
    ((buildRichTextFromMarkdownA s).2 =
      (stageLinkA s).2 ++ (stageBoldA s).2 ++ (stageItalicA s).2 ++ (stageCodeA s).2 ∧
     ((stageLinkA s).2.all fun r => decide (r.kind = StyleKind.link)) = true ∧
     ((stageBoldA s).2.all fun r => decide (r.kind = StyleKind.bold)) = true ∧
     ((stageItalicA s).2.all fun r => decide (r.kind = StyleKind.italic)) = true ∧
     ((stageCodeA s).2.all fun r => decide (r.kind = StyleKind.code)) = true ∧
     sortedRuns (stageLinkA s).2 = true ∧ sortedRuns (stageBoldA s).2 = true ∧
     sortedRuns (stageItalicA s).2 = true ∧ sortedRuns (stageCodeA s).2 = true) ∧
    ((buildRichTextFromMarkdownB s).2 =
      (stageLinkB s).2 ++ (stageBoldB s).2 ++ (stageItalicB s).2 ++ (stageCodeB s).2 ∧
     ((stageLinkB s).2.all fun r => decide (r.kind = StyleKind.link)) = true ∧
     ((stageBoldB s).2.all fun r => decide (r.kind = StyleKind.bold)) = true ∧
     ((stageItalicB s).2.all fun r => decide (r.kind = StyleKind.italic)) = true ∧
     ((stageCodeB s).2.all fun r => decide (r.kind = StyleKind.code)) = true ∧
     sortedRuns (stageLinkB s).2 = true ∧ sortedRuns (stageBoldB s).2 = true ∧
     sortedRuns (stageItalicB s).2 = true ∧ sortedRuns (stageCodeB s).2 = true) := by
  refine ⟨⟨by rw [buildRichTextFromMarkdownA], ?_, ?_, ?_, ?_,
      stageLinkA_sorted s, stageBoldA_sorted s, stageItalicA_sorted s, stageCodeA_sorted s⟩,
    ⟨by rw [buildRichTextFromMarkdownB], ?_, ?_, ?_, ?_,
      stageLinkB_sorted s, stageBoldB_sorted s, stageItalicB_sorted s, stageCodeB_sorted s⟩⟩
  all_goals rw [List.all_eq_true]
  · exact fun r hr => by rw [decide_eq_true_eq]; exact (stageLinkA_runs hr).1
  · exact fun r hr => by rw [decide_eq_true_eq]; exact (stageBoldA_runs hr).1
  · exact fun r hr => by rw [decide_eq_true_eq]; exact (stageItalicA_runs hr).1
  · exact fun r hr => by rw [decide_eq_true_eq]; exact (stageCodeA_runs hr).1
  · exact fun r hr => by rw [decide_eq_true_eq]; exact (stageLinkB_runs hr).1
  · exact fun r hr => by rw [decide_eq_true_eq]; exact (stageBoldB_runs hr).1
  · exact fun r hr => by rw [decide_eq_true_eq]; exact (stageItalicB_runs hr).1
  · exact fun r hr => by rw [decide_eq_true_eq]; exact (stageCodeB_runs hr).1

/-- Witness for C8 at the input "[a](https://x) **b**". -/
theorem c8_run_order_witness :
    (buildRichTextFromMarkdownA ("[a](https://x) **b**".data)).2 =
      (stageLinkA ("[a](https://x) **b**".data)).2 ++
      (stageBoldA ("[a](https://x) **b**".data)).2 ++
      (stageItalicA ("[a](https://x) **b**".data)).2 ++
      (stageCodeA ("[a](https://x) **b**".data)).2 :=
  (c8_run_order ("[a](https://x) **b**".data)).1.1

/-- C3 counterexample: the claim predicts that "**bold" compiles to plain
text "**bold" with no runs, but the part_002 engine pairs the two leading
asterisks as an empty italic span: the italic `expandStyle` pass finds the
second `*` as the close token of the first, yielding plain text "bold" and
an empty italic run. -/
theorem c3_unterminated_counterexample :
    buildRichTextFromMarkdownB ("**bold".data) ≠ ("**bold".data, []) := by
  decide

/-- C5: the input "[a](https://x) **b**" compiles, in both variants, to the
plain text "a b" with exactly a Link run [0,1) carrying the URL followed by
a Bold run [2,3). -/
theorem c5_link_bold_scenario :
    buildRichTextFromMarkdownA ("[a](https://x) **b**".data) =
      ("a b".data, [⟨0, 1, StyleKind.link, some ("https://x".data)⟩,
        ⟨2, 3, StyleKind.bold, none⟩]) ∧
    buildRichTextFromMarkdownB ("[a](https://x) **b**".data) =
      ("a b".data, [⟨0, 1, StyleKind.link, some ("https://x".data)⟩,
        ⟨2, 3, StyleKind.bold, none⟩]) := by
  constructor
  · decide
  · decide

/-- C6 counterexample: the line "# " of the input "# \nfoo" matches
`^(#{1,6})\s*(.+)$` (capturing " ", trimmed to empty), so the claim predicts
the rewrite "****\nfoo"; but JS `\s` also matches the newline, so the
heading pass absorbs the line break and produces "**foo**" instead. -/
theorem c6_heading_counterexample :
    headingPass ("# \nfoo".data) = "**foo**".data ∧
    headingPass ("# \nfoo".data) ≠ ("****\nfoo".data) := by
  constructor
  · decide
  · decide

/-- C10: degenerate link syntax is not matched by the extractor — an empty
label ("[](https://x)") fails the required `[^\]]+`, and a scheme-only URL
("[a](https://)") fails the required `[^\s)]+` — so in both variants such
text passes through to the plain text literally, with no Link run and no
queue entry; the first conjunct shows generally that a `[` immediately
followed by `]` never matches. -/
theorem c10_degenerate_links :
    (∀ rest : List Char, tryLink ('[' :: ']' :: rest) = none) ∧
    preLink ("[](https://x)".data) = ("[](https://x)".data, []) ∧
    preLink ("[a](https://)".data) = ("[a](https://)".data, []) ∧
    buildRichTextFromMarkdownA ("[](https://x)".data) = ("[](https://x)".data, []) ∧
    buildRichTextFromMarkdownA ("[a](https://)".data) = ("[a](https://)".data, []) ∧
    buildRichTextFromMarkdownB ("[](https://x)".data) = ("[](https://x)".data, []) ∧
    buildRichTextFromMarkdownB ("[a](https://)".data) = ("[a](https://)".data, []) := by
  refine ⟨fun rest => ?_, ?_, ?_, ?_, ?_, ?_, ?_⟩
  · simp [tryLink]
  · decide
  · decide
  · decide
  · decide
  · decide
  · decide

theorem idxOf_tail_none {tok : List Char} {c : Char} {cs : List Char}
    (h : idxOf tok (c :: cs) = none) : idxOf tok cs = none := by
  simp only [idxOf] at h
  by_cases hp : tok.isPrefixOf (c :: cs) = true
  · rw [if_pos hp] at h
    exact absurd h (by simp)
  · rw [if_neg hp] at h
    cases hi : idxOf tok cs with
    | none => rfl
    | some n =>
      rw [hi] at h
      simp at h

theorem idxOf_drop_none {tok : List Char} : ∀ (n : Nat) {src : List Char},
    idxOf tok src = none → idxOf tok (src.drop n) = none := by
  intro n
  induction n with
  | zero => intro src h; simpa using h
  | succ n ih =>
    intro src h
    cases src with
    | nil => simpa using h
    | cons c cs =>
      rw [List.drop_succ_cons]
      exact ih (idxOf_tail_none h)

theorem idxOf_some_split {tok : List Char} : ∀ (src : List Char) (o : Nat),
    idxOf tok src = some o →
    src = src.take o ++ tok ++ src.drop (o + tok.length) := by
  intro src
  induction src with
  | nil =>
    intro o h
    simp only [idxOf] at h
    by_cases he : tok.isEmpty = true
    · rw [if_pos he] at h
      injection h with ho
      subst ho
      cases tok with
      | nil => rfl
      | cons x xs => simp [List.isEmpty] at he
    · rw [if_neg he] at h
      exact absurd h (by simp)
  | cons c cs ih =>
    intro o h
    simp only [idxOf] at h
    by_cases hp : tok.isPrefixOf (c :: cs) = true
    · rw [if_pos hp] at h
      injection h with ho
      subst ho
      obtain ⟨t, ht⟩ := List.isPrefixOf_iff_prefix.mp hp
      rw [List.take_zero, Nat.zero_add, List.nil_append, ← ht, List.drop_left]
    · rw [if_neg hp] at h
      cases hi : idxOf tok cs with
      | none =>
        rw [hi] at h
        exact absurd h (by simp)
      | some n =>
        rw [hi] at h
        simp only [Option.map_some'] at h
        injection h with ho
        subst ho
        have := ih n hi
        calc c :: cs = c :: (cs.take n ++ tok ++ cs.drop (n + tok.length)) := by rw [← this]
          _ = (c :: cs).take (n + 1) ++ tok ++ (c :: cs).drop (n + 1 + tok.length) := by
            rw [List.take_succ_cons]
            rw [show n + 1 + tok.length = (n + tok.length) + 1 by omega]
            rw [List.drop_succ_cons]
            simp [List.append_assoc]

theorem expandStyle_no_close (fuel : Nat) (opn cls : List Char) (k : StyleKind)
    (base : List Char) : ∀ (out src : List Char), idxOf cls src = none →
    expandStyle fuel opn cls k base out src = (out ++ src, []) := by
  induction fuel with
  | zero => intro out src _; rfl
  | succ fuel ih =>
    intro out src h
    cases hidx : idxOf opn src with
    | none => simp [expandStyle, hidx]
    | some o =>
      have hcls : idxOf cls (src.drop (o + opn.length)) = none := idxOf_drop_none _ h
      simp only [expandStyle, hidx, hcls]
      rw [ih (out ++ src.take o ++ opn) (src.drop (o + opn.length)) hcls]
      have hsplit := idxOf_some_split src o hidx
      rw [show out ++ src.take o ++ opn ++ src.drop (o + opn.length) =
        out ++ (src.take o ++ opn ++ src.drop (o + opn.length)) by
          simp [List.append_assoc]]
      rw [← hsplit]

/-- C3 amended: when the close token never occurs in a pass's input, every
occurrence of the open token passes through literally and the pass emits no
run (`expandStyle` returns its input appended unchanged). The "**bold"
scenario holds only in the marker variant (part_001), which compiles it to
("**bold", no runs); in the direct-delimiter variant (part_002) the bold
pass passes "**" through, but the italic pass then treats the two asterisks
as an open/close pair around empty content, giving plain text "bold" with
one empty italic run [0,0). -/
theorem c3_unterminated_amended :
    (∀ (fuel : Nat) (opn cls : List Char) (k : StyleKind) (base out src : List Char),
      idxOf cls src = none →
      expandStyle fuel opn cls k base out src = (out ++ src, [])) ∧
    buildRichTextFromMarkdownA ("**bold".data) = ("**bold".data, []) ∧
    buildRichTextFromMarkdownB ("**bold".data) =
      ("bold".data, [⟨0, 0, StyleKind.italic, none⟩]) := by
  refine ⟨fun fuel opn cls k base out src h =>
    expandStyle_no_close fuel opn cls k base out src h, ?_, ?_⟩
  · decide
  · decide

/-- Witness for the amended C3: the bold marker pass of part_001 on an input
with an open bold marker and no close marker passes the text through with
no runs. -/
theorem c3_unterminated_amended_witness :
    idxOf [bClose] (bOpen :: "bold".data) = none ∧
    expandStyle 5 [bOpen] [bClose] StyleKind.bold [] [] (bOpen :: "bold".data) =
      ([] ++ (bOpen :: "bold".data), []) :=
  ⟨by decide, (c3_unterminated_amended.1 5 [bOpen] [bClose] StyleKind.bold [] []
    (bOpen :: "bold".data) (by decide))⟩

theorem expandStyleC_erase (fuel : Nat) (opn cls : List Char) (k : StyleKind)
    (base : List Char) : ∀ (out src : List Char),
    (expandStyleC fuel opn cls k base out src).1 =
      (expandStyle fuel opn cls k base out src).1 ∧
    (expandStyleC fuel opn cls k base out src).2.map Prod.fst =
      (expandStyle fuel opn cls k base out src).2 := by
  induction fuel with
  | zero => intro out src; exact ⟨rfl, rfl⟩
  | succ fuel ih =>
    intro out src
    cases hidx : idxOf opn src with
    | none =>
      simp [expandStyleC, expandStyle, hidx]
    | some o =>
      cases hcls : idxOf cls (src.drop (o + opn.length)) with
      | none =>
        simp only [expandStyleC, expandStyle, hidx, hcls]
        exact ih _ _
      | some c =>
        simp only [expandStyleC, expandStyle, hidx, hcls, List.map_cons]
        obtain ⟨h1, h2⟩ := ih (out ++ src.take o ++ (src.drop (o + opn.length)).take c)
          ((src.drop (o + opn.length)).drop (c + cls.length))
        exact ⟨h1, by rw [h2]⟩

theorem linkExpandGoC_erase (fuel : Nat) :
    ∀ (q : List (List Char × List Char)) (acc src : List Char),
    (linkExpandGoC fuel q acc src).1 = (linkExpandGo fuel q acc src).1 ∧
    (linkExpandGoC fuel q acc src).2.map Prod.fst = (linkExpandGo fuel q acc src).2 := by
  induction fuel with
  | zero => intro q acc src; exact ⟨rfl, rfl⟩
  | succ fuel ih =>
    intro q acc src
    cases src with
    | nil => exact ⟨rfl, rfl⟩
    | cons c rest =>
      by_cases hc : c = sOpen
      · by_cases hcl : rest.contains sClose = true
        · cases q with
          | nil =>
            simp only [linkExpandGoC, linkExpandGo, if_pos hc, hcl, if_true]
            exact ih _ _ _
          | cons p q2 =>
            simp only [linkExpandGoC, linkExpandGo, if_pos hc, hcl, if_true, List.map_cons]
            obtain ⟨h1, h2⟩ := ih q2 (acc ++ rest.takeWhile (· ≠ sClose))
              (rest.drop ((rest.takeWhile (· ≠ sClose)).length + 1))
            exact ⟨h1, by rw [h2]⟩
        · simp only [linkExpandGoC, linkExpandGo, if_pos hc, hcl, if_false,
            Bool.false_eq_true]
          exact ih _ _ _
      · simp only [linkExpandGoC, linkExpandGo, if_neg hc]
        exact ih _ _ _

theorem slice_append_helper (b o i e : List Char) :
    ((b ++ ((o ++ i) ++ e)).drop (b.length + o.length)).take
      ((b.length + (o ++ i).length) - (b.length + o.length)) = i := by
  have h1 : b ++ ((o ++ i) ++ e) = (b ++ o) ++ (i ++ e) := by
    simp [List.append_assoc]
  have h2 : (b.length + (o ++ i).length) - (b.length + o.length) = i.length := by
    simp only [List.length_append]
    omega
  have h3 : b.length + o.length = (b ++ o).length := by
    simp [List.length_append]
  rw [h1, h2, h3, List.drop_left, List.take_left]

theorem slice_append_helper2 (o i e : List Char) :
    (((o ++ i) ++ e).drop o.length).take ((o.length + i.length) - o.length) = i := by
  have h1 : (o ++ i) ++ e = o ++ (i ++ e) := by
    simp [List.append_assoc]
  have h2 : (o.length + i.length) - o.length = i.length := by
    omega
  rw [h1, h2, List.drop_left, List.take_left]

theorem expandStyleC_spec (fuel : Nat) (opn cls : List Char) (k : StyleKind)
    (base : List Char) : ∀ (out src : List Char),
    (∃ ext, (expandStyleC fuel opn cls k base out src).1 = out ++ ext) ∧
    ∀ p ∈ (expandStyleC fuel opn cls k base out src).2,
      p.1.start ≤ p.1.stop ∧
      p.1.stop ≤ base.length + (expandStyleC fuel opn cls k base out src).1.length ∧
      ((base ++ (expandStyleC fuel opn cls k base out src).1).drop p.1.start).take
        (p.1.stop - p.1.start) = p.2 := by
  induction fuel with
  | zero =>
    intro out src
    exact ⟨⟨src, rfl⟩, fun p hp => absurd hp (List.not_mem_nil p)⟩
  | succ fuel ih =>
    intro out src
    cases hidx : idxOf opn src with
    | none =>
      simp only [expandStyleC, hidx]
      exact ⟨⟨src, rfl⟩, fun p hp => absurd hp (List.not_mem_nil p)⟩
    | some o =>
      cases hcls : idxOf cls (src.drop (o + opn.length)) with
      | none =>
        simp only [expandStyleC, hidx, hcls]
        obtain ⟨⟨ext, hext⟩, hps⟩ :=
          ih (out ++ src.take o ++ opn) (src.drop (o + opn.length))
        exact ⟨⟨src.take o ++ (opn ++ ext), by rw [hext]; simp [List.append_assoc]⟩, hps⟩
      | some c =>
        simp only [expandStyleC, hidx, hcls]
        obtain ⟨⟨ext, hext⟩, hps⟩ :=
          ih (out ++ src.take o ++ (src.drop (o + opn.length)).take c)
            ((src.drop (o + opn.length)).drop (c + cls.length))
        refine ⟨⟨src.take o ++ ((src.drop (o + opn.length)).take c ++ ext),
          by rw [hext]; simp [List.append_assoc]⟩, ?_⟩
        intro p hp
        rcases List.mem_cons.mp hp with hp0 | hpr
        · subst hp0
          refine ⟨?_, ?_, ?_⟩
          · show base.length + (out ++ src.take o).length ≤
              base.length + (out ++ src.take o ++ (src.drop (o + opn.length)).take c).length
            simp only [List.length_append]
            omega
          · show base.length + (out ++ src.take o ++ (src.drop (o + opn.length)).take c).length ≤
              base.length + (expandStyleC fuel opn cls k base
                (out ++ src.take o ++ (src.drop (o + opn.length)).take c)
                ((src.drop (o + opn.length)).drop (c + cls.length))).1.length
            rw [hext]
            simp only [List.length_append]
            omega
          · show ((base ++ (expandStyleC fuel opn cls k base
                (out ++ src.take o ++ (src.drop (o + opn.length)).take c)
                ((src.drop (o + opn.length)).drop (c + cls.length))).1).drop
              (base.length + (out ++ src.take o).length)).take
              ((base.length + (out ++ src.take o ++ (src.drop (o + opn.length)).take c).length) -
                (base.length + (out ++ src.take o).length)) =
              (src.drop (o + opn.length)).take c
            rw [hext]
            exact slice_append_helper base (out ++ src.take o)
              ((src.drop (o + opn.length)).take c) ext
        · exact hps p hpr

theorem linkExpandGoC_spec (fuel : Nat) :
    ∀ (q : List (List Char × List Char)) (acc src : List Char),
    (∃ ext, (linkExpandGoC fuel q acc src).1 = acc ++ ext) ∧
    ∀ p ∈ (linkExpandGoC fuel q acc src).2,
      p.1.start ≤ p.1.stop ∧
      p.1.stop ≤ (linkExpandGoC fuel q acc src).1.length ∧
      (((linkExpandGoC fuel q acc src).1).drop p.1.start).take
        (p.1.stop - p.1.start) = p.2 := by
  induction fuel with
  | zero =>
    intro q acc src
    exact ⟨⟨src, rfl⟩, fun p hp => absurd hp (List.not_mem_nil p)⟩
  | succ fuel ih =>
    intro q acc src
    cases src with
    | nil =>
      exact ⟨⟨[], by simp [linkExpandGoC]⟩, fun p hp => absurd hp (List.not_mem_nil p)⟩
    | cons c rest =>
      by_cases hc : c = sOpen
      · by_cases hcl : rest.contains sClose = true
        · cases q with
          | nil =>
            simp only [linkExpandGoC, if_pos hc, hcl, if_true]
            obtain ⟨⟨ext, hext⟩, hps⟩ :=
              ih [] (acc ++ rest.takeWhile (· ≠ sClose))
                (rest.drop ((rest.takeWhile (· ≠ sClose)).length + 1))
            exact ⟨⟨rest.takeWhile (· ≠ sClose) ++ ext,
              by rw [hext]; simp [List.append_assoc]⟩, hps⟩
          | cons pq q2 =>
            simp only [linkExpandGoC, if_pos hc, hcl, if_true]
            obtain ⟨⟨ext, hext⟩, hps⟩ :=
              ih q2 (acc ++ rest.takeWhile (· ≠ sClose))
                (rest.drop ((rest.takeWhile (· ≠ sClose)).length + 1))
            refine ⟨⟨rest.takeWhile (· ≠ sClose) ++ ext,
              by rw [hext]; simp [List.append_assoc]⟩, ?_⟩
            intro p hp
            rcases List.mem_cons.mp hp with hp0 | hpr
            · subst hp0
              refine ⟨Nat.le_add_right _ _, ?_, ?_⟩
              · show acc.length + (rest.takeWhile (· ≠ sClose)).length ≤
                  (linkExpandGoC fuel q2 (acc ++ rest.takeWhile (· ≠ sClose))
                    (rest.drop ((rest.takeWhile (· ≠ sClose)).length + 1))).1.length
                rw [hext]
                simp only [List.length_append]
                omega
              · show (((linkExpandGoC fuel q2 (acc ++ rest.takeWhile (· ≠ sClose))
                    (rest.drop ((rest.takeWhile (· ≠ sClose)).length + 1))).1).drop
                  acc.length).take
                  ((acc.length + (rest.takeWhile (· ≠ sClose)).length) - acc.length) =
                  rest.takeWhile (· ≠ sClose)
                rw [hext]
                exact slice_append_helper2 acc (rest.takeWhile (· ≠ sClose)) ext
            · exact hps p hpr
        · simp only [linkExpandGoC, if_pos hc, hcl, if_false, Bool.false_eq_true]
          obtain ⟨⟨ext, hext⟩, hps⟩ := ih q (acc ++ [c]) rest
          exact ⟨⟨c :: ext, by rw [hext]; simp⟩, hps⟩
      · simp only [linkExpandGoC, if_neg hc]
        obtain ⟨⟨ext, hext⟩, hps⟩ := ih q (acc ++ [c]) rest
        exact ⟨⟨c :: ext, by rw [hext]; simp⟩, hps⟩

theorem stageLinkCA_content (s : List Char) :
    (stageLinkCA s).1 = (stageLinkA s).1 ∧
    (stageLinkCA s).2.map Prod.fst = (stageLinkA s).2 ∧
    (stageLinkCA s).2.all (contentOk (stageLinkA s).1) = true := by
  obtain ⟨h1, h2⟩ := linkExpandGoC_erase (markedA s).length (preLink s).2 [] (markedA s)
  refine ⟨h1, h2, ?_⟩
  rw [List.all_eq_true]
  intro p hp
  obtain ⟨_, hub, hslice⟩ :=
    (linkExpandGoC_spec (markedA s).length (preLink s).2 [] (markedA s)).2 p hp
  simp only [contentOk, Bool.and_eq_true, decide_eq_true_eq]
  constructor
  · show p.1.stop ≤ (linkExpandGo (markedA s).length (preLink s).2 [] (markedA s)).1.length
    rw [← h1]
    exact hub
  · show (((linkExpandGo (markedA s).length (preLink s).2 [] (markedA s)).1).drop
      p.1.start).take (p.1.stop - p.1.start) = p.2
    rw [← h1]
    exact hslice

theorem stageBoldCA_content (s : List Char) :
    (stageBoldCA s).1 = (stageBoldA s).1 ∧
    (stageBoldCA s).2.map Prod.fst = (stageBoldA s).2 ∧
    (stageBoldCA s).2.all (contentOk (stageBoldA s).1) = true := by
  obtain ⟨h1, h2⟩ := expandStyleC_erase (stageLinkA s).1.length [bOpen] [bClose]
    StyleKind.bold [] [] (stageLinkA s).1
  refine ⟨h1, h2, ?_⟩
  rw [List.all_eq_true]
  intro p hp
  obtain ⟨_, hub, hslice⟩ := (expandStyleC_spec (stageLinkA s).1.length [bOpen] [bClose]
    StyleKind.bold [] [] (stageLinkA s).1).2 p hp
  simp only [List.nil_append, List.length_nil, Nat.zero_add] at hub hslice
  simp only [contentOk, Bool.and_eq_true, decide_eq_true_eq]
  constructor
  · show p.1.stop ≤ (expandStyle (stageLinkA s).1.length [bOpen] [bClose]
      StyleKind.bold [] [] (stageLinkA s).1).1.length
    rw [← h1]
    exact hub
  · show (((expandStyle (stageLinkA s).1.length [bOpen] [bClose]
      StyleKind.bold [] [] (stageLinkA s).1).1).drop p.1.start).take
      (p.1.stop - p.1.start) = p.2
    rw [← h1]
    exact hslice

theorem stageItalicCA_content (s : List Char) :
    (stageItalicCA s).1 = (stageItalicA s).1 ∧
    (stageItalicCA s).2.map Prod.fst = (stageItalicA s).2 ∧
    (stageItalicCA s).2.all (contentOk (stageItalicA s).1) = true := by
  obtain ⟨h1, h2⟩ := expandStyleC_erase (stageBoldA s).1.length [iOpen] [iClose]
    StyleKind.italic [] [] (stageBoldA s).1
  refine ⟨h1, h2, ?_⟩
  rw [List.all_eq_true]
  intro p hp
  obtain ⟨_, hub, hslice⟩ := (expandStyleC_spec (stageBoldA s).1.length [iOpen] [iClose]
    StyleKind.italic [] [] (stageBoldA s).1).2 p hp
  simp only [List.nil_append, List.length_nil, Nat.zero_add] at hub hslice
  simp only [contentOk, Bool.and_eq_true, decide_eq_true_eq]
  constructor
  · show p.1.stop ≤ (expandStyle (stageBoldA s).1.length [iOpen] [iClose]
      StyleKind.italic [] [] (stageBoldA s).1).1.length
    rw [← h1]
    exact hub
  · show (((expandStyle (stageBoldA s).1.length [iOpen] [iClose]
      StyleKind.italic [] [] (stageBoldA s).1).1).drop p.1.start).take
      (p.1.stop - p.1.start) = p.2
    rw [← h1]
    exact hslice

theorem stageCodeCA_content (s : List Char) :
    (stageCodeCA s).1 = (stageCodeA s).1 ∧
    (stageCodeCA s).2.map Prod.fst = (stageCodeA s).2 ∧
    (stageCodeCA s).2.all (contentOk (stageCodeA s).1) = true := by
  obtain ⟨h1, h2⟩ := expandStyleC_erase (stageItalicA s).1.length [cOpen] [cClose]
    StyleKind.code [] [] (stageItalicA s).1
  refine ⟨h1, h2, ?_⟩
  rw [List.all_eq_true]
  intro p hp
  obtain ⟨_, hub, hslice⟩ := (expandStyleC_spec (stageItalicA s).1.length [cOpen] [cClose]
    StyleKind.code [] [] (stageItalicA s).1).2 p hp
  simp only [List.nil_append, List.length_nil, Nat.zero_add] at hub hslice
  simp only [contentOk, Bool.and_eq_true, decide_eq_true_eq]
  constructor
  · show p.1.stop ≤ (expandStyle (stageItalicA s).1.length [cOpen] [cClose]
      StyleKind.code [] [] (stageItalicA s).1).1.length
    rw [← h1]
    exact hub
  · show (((expandStyle (stageItalicA s).1.length [cOpen] [cClose]
      StyleKind.code [] [] (stageItalicA s).1).1).drop p.1.start).take
      (p.1.stop - p.1.start) = p.2
    rw [← h1]
    exact hslice

theorem stageLinkCB_content (s : List Char) :
    (stageLinkCB s).1 = (stageLinkB s).1 ∧
    (stageLinkCB s).2.map Prod.fst = (stageLinkB s).2 ∧
    (stageLinkCB s).2.all (contentOk (stageLinkB s).1) = true := by
  obtain ⟨h1, h2⟩ := linkExpandGoC_erase (preLink s).1.length (preLink s).2 [] (preLink s).1
  refine ⟨h1, h2, ?_⟩
  rw [List.all_eq_true]
  intro p hp
  obtain ⟨_, hub, hslice⟩ :=
    (linkExpandGoC_spec (preLink s).1.length (preLink s).2 [] (preLink s).1).2 p hp
  simp only [contentOk, Bool.and_eq_true, decide_eq_true_eq]
  constructor
  · show p.1.stop ≤ (linkExpandGo (preLink s).1.length (preLink s).2 [] (preLink s).1).1.length
    rw [← h1]
    exact hub
  · show (((linkExpandGo (preLink s).1.length (preLink s).2 [] (preLink s).1).1).drop
      p.1.start).take (p.1.stop - p.1.start) = p.2
    rw [← h1]
    exact hslice

theorem stageBoldCB_content (s : List Char) :
    (stageBoldCB s).1 = (stageBoldB s).1 ∧
    (stageBoldCB s).2.map Prod.fst = (stageBoldB s).2 ∧
    (stageBoldCB s).2.all (contentOk (stageBoldB s).1) = true := by
  obtain ⟨h1, h2⟩ := expandStyleC_erase (stageLinkB s).1.length ['*', '*'] ['*', '*']
    StyleKind.bold [] [] (stageLinkB s).1
  refine ⟨h1, h2, ?_⟩
  rw [List.all_eq_true]
  intro p hp
  obtain ⟨_, hub, hslice⟩ := (expandStyleC_spec (stageLinkB s).1.length ['*', '*'] ['*', '*']
    StyleKind.bold [] [] (stageLinkB s).1).2 p hp
  simp only [List.nil_append, List.length_nil, Nat.zero_add] at hub hslice
  simp only [contentOk, Bool.and_eq_true, decide_eq_true_eq]
  constructor
  · show p.1.stop ≤ (expandStyle (stageLinkB s).1.length ['*', '*'] ['*', '*']
      StyleKind.bold [] [] (stageLinkB s).1).1.length
    rw [← h1]
    exact hub
  · show (((expandStyle (stageLinkB s).1.length ['*', '*'] ['*', '*']
      StyleKind.bold [] [] (stageLinkB s).1).1).drop p.1.start).take
      (p.1.stop - p.1.start) = p.2
    rw [← h1]
    exact hslice

theorem stageItalicCB_content (s : List Char) :
    (stageItalicCB s).1 = (stageItalicB s).1 ∧
    (stageItalicCB s).2.map Prod.fst = (stageItalicB s).2 ∧
    (stageItalicCB s).2.all (contentOk (stageItalicB s).1) = true := by
  obtain ⟨h1, h2⟩ := expandStyleC_erase (stageBoldB s).1.length ['*'] ['*']
    StyleKind.italic [] [] (stageBoldB s).1
  refine ⟨h1, h2, ?_⟩
  rw [List.all_eq_true]
  intro p hp
  obtain ⟨_, hub, hslice⟩ := (expandStyleC_spec (stageBoldB s).1.length ['*'] ['*']
    StyleKind.italic [] [] (stageBoldB s).1).2 p hp
  simp only [List.nil_append, List.length_nil, Nat.zero_add] at hub hslice
  simp only [contentOk, Bool.and_eq_true, decide_eq_true_eq]
  constructor
  · show p.1.stop ≤ (expandStyle (stageBoldB s).1.length ['*'] ['*']
      StyleKind.italic [] [] (stageBoldB s).1).1.length
    rw [← h1]
    exact hub
  · show (((expandStyle (stageBoldB s).1.length ['*'] ['*']
      StyleKind.italic [] [] (stageBoldB s).1).1).drop p.1.start).take
      (p.1.stop - p.1.start) = p.2
    rw [← h1]
    exact hslice

theorem stageCodeCB_content (s : List Char) :
    (stageCodeCB s).1 = (stageCodeB s).1 ∧
    (stageCodeCB s).2.map Prod.fst = (stageCodeB s).2 ∧
    (stageCodeCB s).2.all (contentOk (stageCodeB s).1) = true := by
  obtain ⟨h1, h2⟩ := expandStyleC_erase (stageItalicB s).1.length [btick] [btick]
    StyleKind.code [] [] (stageItalicB s).1
  refine ⟨h1, h2, ?_⟩
  rw [List.all_eq_true]
  intro p hp
  obtain ⟨_, hub, hslice⟩ := (expandStyleC_spec (stageItalicB s).1.length [btick] [btick]
    StyleKind.code [] [] (stageItalicB s).1).2 p hp
  simp only [List.nil_append, List.length_nil, Nat.zero_add] at hub hslice
  simp only [contentOk, Bool.and_eq_true, decide_eq_true_eq]
  constructor
  · show p.1.stop ≤ (expandStyle (stageItalicB s).1.length [btick] [btick]
      StyleKind.code [] [] (stageItalicB s).1).1.length
    rw [← h1]
    exact hub
  · show (((expandStyle (stageItalicB s).1.length [btick] [btick]
      StyleKind.code [] [] (stageItalicB s).1).1).drop p.1.start).take
      (p.1.stop - p.1.start) = p.2
    rw [← h1]
    exact hslice

/-- C1 amended: every StyleRun round-trips its content with respect to the
pass that emitted it. The instrumented passes (which, by the erasure
equalities in each conjunct, compute exactly the engine's texts and runs)
record next to each run the content whose append produced it — the dequeued
label for a Link run, the delimiter-stripped inner slice for Bold, Italic
and Code runs — and for every such pair the slice [start, stop) of that
pass's output text is exactly the recorded content, with the offsets in
bounds; for the final (code) pass this holds against the final plain text
itself. Offsets of earlier passes remain valid in the final plain text
only while later passes remove no delimiter characters below stop, which
nested markup violates (see the counterexample). -/
theorem c1_content_roundtrip_amended (s : List Char) :
    ((stageLinkCA s).1 = (stageLinkA s).1 ∧
      (stageLinkCA s).2.map Prod.fst = (stageLinkA s).2 ∧
      (stageLinkCA s).2.all (contentOk (stageLinkA s).1) = true) ∧
    ((stageBoldCA s).1 = (stageBoldA s).1 ∧
      (stageBoldCA s).2.map Prod.fst = (stageBoldA s).2 ∧
      (stageBoldCA s).2.all (contentOk (stageBoldA s).1) = true) ∧
    ((stageItalicCA s).1 = (stageItalicA s).1 ∧
      (stageItalicCA s).2.map Prod.fst = (stageItalicA s).2 ∧
      (stageItalicCA s).2.all (contentOk (stageItalicA s).1) = true) ∧
    ((stageCodeCA s).1 = (stageCodeA s).1 ∧
      (stageCodeCA s).2.map Prod.fst = (stageCodeA s).2 ∧
      (stageCodeCA s).2.all (contentOk (buildRichTextFromMarkdownA s).1) = true) ∧
    ((stageLinkCB s).1 = (stageLinkB s).1 ∧
      (stageLinkCB s).2.map Prod.fst = (stageLinkB s).2 ∧
      (stageLinkCB s).2.all (contentOk (stageLinkB s).1) = true) ∧
    ((stageBoldCB s).1 = (stageBoldB s).1 ∧
      (stageBoldCB s).2.map Prod.fst = (stageBoldB s).2 ∧
      (stageBoldCB s).2.all (contentOk (stageBoldB s).1) = true) ∧
    ((stageItalicCB s).1 = (stageItalicB s).1 ∧
      (stageItalicCB s).2.map Prod.fst = (stageItalicB s).2 ∧
      (stageItalicCB s).2.all (contentOk (stageItalicB s).1) = true) ∧
    ((stageCodeCB s).1 = (stageCodeB s).1 ∧
      (stageCodeCB s).2.map Prod.fst = (stageCodeB s).2 ∧
      (stageCodeCB s).2.all (contentOk (buildRichTextFromMarkdownB s).1) = true) := by
  refine ⟨stageLinkCA_content s, stageBoldCA_content s, stageItalicCA_content s,
    ⟨(stageCodeCA_content s).1, (stageCodeCA_content s).2.1, ?_⟩,
    stageLinkCB_content s, stageBoldCB_content s, stageItalicCB_content s,
    ⟨(stageCodeCB_content s).1, (stageCodeCB_content s).2.1, ?_⟩⟩
  · rw [buildA_fst]
    exact (stageCodeCA_content s).2.2
  · rw [buildB_fst]
    exact (stageCodeCB_content s).2.2

theorem isLineTerm_isJsSpace {c : Char} (h : isLineTerm c = true) : isJsSpace c = true := by
  simp only [isLineTerm, Bool.or_eq_true, decide_eq_true_eq] at h
  simp only [isJsSpace, Bool.or_eq_true, Bool.and_eq_true, decide_eq_true_eq]
  omega

theorem not_isLineTerm_of_not_isJsSpace {c : Char} (h : isJsSpace c = false) :
    isLineTerm c = false := by
  cases hl : isLineTerm c with
  | false => rfl
  | true => rw [isLineTerm_isJsSpace hl] at h; exact absurd h (by simp)

theorem tryHeadK_pos {cs : List Char} : ∀ {kk : Nat} {content : List Char} {n : Nat},
    tryHeadK cs kk = some (content, n) → 1 ≤ n := by
  intro kk
  induction kk with
  | zero => intro content n h; exact absurd h (by simp [tryHeadK])
  | succ kk ih =>
    intro content n h
    simp only [tryHeadK] at h
    cases hat : tryHeadAt cs (kk + 1) with
    | none =>
      rw [hat] at h
      exact ih h
    | some r =>
      rw [hat] at h
      injection h with hr
      subst hr
      simp only [tryHeadAt] at hat
      cases hfj : findJ (cs.drop (kk + 1))
          ((cs.drop (kk + 1)).takeWhile isJsSpace).length with
      | none => rw [hfj] at hat; exact absurd hat (by simp)
      | some j =>
        rw [hfj] at hat
        injection hat with hat2
        injection hat2 with hc hn
        omega

theorem tryHeading_pos {cs content : List Char} {n : Nat}
    (h : tryHeading cs = some (content, n)) : 1 ≤ n := by
  simp only [tryHeading] at h
  by_cases h0 : hashCount cs = 0
  · rw [if_pos h0] at h
    exact absurd h (by simp)
  · rw [if_neg h0] at h
    exact tryHeadK_pos h

theorem headingGo_fuel : ∀ (f1 f2 : Nat) (a : Bool) (cs : List Char),
    cs.length ≤ f1 → cs.length ≤ f2 → headingGo f1 a cs = headingGo f2 a cs := by
  intro f1
  induction f1 with
  | zero =>
    intro f2 a cs h1 _
    have hnil : cs = [] := List.length_eq_zero.mp (Nat.le_zero.mp h1)
    subst hnil
    cases f2 <;> rfl
  | succ f1 ih =>
    intro f2 a cs h1 h2
    cases cs with
    | nil => cases f2 <;> rfl
    | cons c cs =>
      cases f2 with
      | zero => simp at h2
      | succ f2 =>
        have hc1 : cs.length ≤ f1 := by
          simp only [List.length_cons] at h1
          omega
        have hc2 : cs.length ≤ f2 := by
          simp only [List.length_cons] at h2
          omega
        cases a with
        | false =>
          simp only [headingGo, Bool.false_eq_true, if_false]
          rw [ih f2 (isLineTerm c) cs hc1 hc2]
        | true =>
          cases htr : tryHeading (c :: cs) with
          | none =>
            simp only [headingGo, if_true, htr]
            rw [ih f2 (isLineTerm c) cs hc1 hc2]
          | some r =>
            obtain ⟨content, n⟩ := r
            have hn : 1 ≤ n := tryHeading_pos htr
            have hd1 : ((c :: cs).drop n).length ≤ f1 := by
              simp only [List.length_drop, List.length_cons] at *
              omega
            have hd2 : ((c :: cs).drop n).length ≤ f2 := by
              simp only [List.length_drop, List.length_cons] at *
              omega
            simp only [headingGo, if_true, htr]
            rw [ih f2 false ((c :: cs).drop n) hd1 hd2]

theorem hashCount_prefix {k : Nat} {ws : List Char} {c0 : Char} {tr : List Char}
    (hws : ∀ c ∈ ws, isJsSpace c = true)
    (hc0h : ws = [] → c0 ≠ '#') :
    hashCount (List.replicate k '#' ++ (ws ++ c0 :: tr)) = k := by
  have h2 : (ws ++ c0 :: tr).takeWhile (· = '#') = [] := by
    cases ws with
    | nil =>
      simp only [List.nil_append]
      exact List.takeWhile_cons_of_neg (by simpa using hc0h rfl)
    | cons w ws' =>
      have hw : isJsSpace w = true := hws w (List.mem_cons_self w ws')
      have hwne : w ≠ '#' := by
        intro hww
        rw [hww] at hw
        exact absurd hw (by decide)
      rw [List.cons_append]
      exact List.takeWhile_cons_of_neg (by simpa using hwne)
  rw [hashCount, List.takeWhile_append_of_pos (fun a ha => by
    rw [List.eq_of_mem_replicate ha]; simp), h2]
  simp

theorem tryHeadAt_eq {k : Nat} {ws : List Char} {c0 : Char} {text rest : List Char}
    (hws : ∀ c ∈ ws, isJsSpace c = true)
    (hc0 : isJsSpace c0 = false)
    (htext : ∀ c ∈ text, isLineTerm c = false)
    (hrest : rest = [] ∨ ∃ d t, rest = d :: t ∧ isLineTerm d = true) :
    tryHeadAt (List.replicate k '#' ++ (ws ++ c0 :: (text ++ rest))) k =
      some (c0 :: text, k + ws.length + (c0 :: text).length) := by
  have hterm0 : isLineTerm c0 = false := not_isLineTerm_of_not_isJsSpace hc0
  have hdrop : (List.replicate k '#' ++ (ws ++ c0 :: (text ++ rest))).drop k =
      ws ++ c0 :: (text ++ rest) := List.drop_left' (by simp)
  have htw : (ws ++ c0 :: (text ++ rest)).takeWhile isJsSpace = ws := by
    rw [List.takeWhile_append_of_pos hws, List.takeWhile_cons_of_neg (by simp [hc0]),
      List.append_nil]
  have hget : (ws ++ c0 :: (text ++ rest))[ws.length]? = some c0 := by
    rw [List.getElem?_append_right (le_refl ws.length)]
    simp
  have hfj : findJ (ws ++ c0 :: (text ++ rest)) ws.length = some ws.length := by
    cases hW : ws.length with
    | zero =>
      rw [hW] at hget
      simp only [findJ, hget, hterm0, Bool.false_eq_true, if_false]
    | succ w =>
      rw [hW] at hget
      simp only [findJ, hget, hterm0, Bool.false_eq_true, if_false]
  have hdj : (ws ++ c0 :: (text ++ rest)).drop ws.length = c0 :: (text ++ rest) :=
    List.drop_left _ _
  have hcontent : (c0 :: (text ++ rest)).takeWhile (fun c => !isLineTerm c) = c0 :: text := by
    rw [List.takeWhile_cons_of_pos (by simp [hterm0])]
    congr 1
    rw [List.takeWhile_append_of_pos (fun c hc => by simp [htext c hc])]
    rcases hrest with h | ⟨d, t, hdt, hd⟩
    · subst h
      simp
    · subst hdt
      rw [List.takeWhile_cons_of_neg (by simp [hd]), List.append_nil]
  simp only [tryHeadAt, hdrop, htw, hfj, hdj, hcontent]

theorem tryHeading_eq {k : Nat} {ws : List Char} {c0 : Char} {text rest : List Char}
    (hk1 : 1 ≤ k) (hk6 : k ≤ 6)
    (hws : ∀ c ∈ ws, isJsSpace c = true)
    (hc0 : isJsSpace c0 = false) (hc0h : ws = [] → c0 ≠ '#')
    (htext : ∀ c ∈ text, isLineTerm c = false)
    (hrest : rest = [] ∨ ∃ d t, rest = d :: t ∧ isLineTerm d = true) :
    tryHeading (List.replicate k '#' ++ (ws ++ c0 :: (text ++ rest))) =
      some (c0 :: text, k + ws.length + (c0 :: text).length) := by
  have hhc : hashCount (List.replicate k '#' ++ (ws ++ c0 :: (text ++ rest))) = k :=
    hashCount_prefix hws hc0h
  simp only [tryHeading, hhc]
  rw [if_neg (by omega), Nat.min_eq_right hk6]
  cases k with
  | zero => omega
  | succ kk =>
    simp only [tryHeadK]
    rw [tryHeadAt_eq hws hc0 htext hrest]

theorem headingGo_line (fuel k : Nat) (ws : List Char) (c0 : Char) (text rest : List Char)
    (hk1 : 1 ≤ k) (hk6 : k ≤ 6)
    (hws : ∀ c ∈ ws, isJsSpace c = true ∧ isLineTerm c = false)
    (hc0 : isJsSpace c0 = false) (hc0h : ws = [] → c0 ≠ '#')
    (htext : ∀ c ∈ text, isLineTerm c = false)
    (hrest : rest = [] ∨ ∃ d t, rest = d :: t ∧ isLineTerm d = true) :
    headingGo (fuel + 1) true (List.replicate k '#' ++ (ws ++ c0 :: (text ++ rest))) =
      '*' :: '*' :: (jsTrim (c0 :: text) ++ '*' :: '*' :: headingGo fuel false rest) := by
  have hws' : ∀ c ∈ ws, isJsSpace c = true := fun c hc => (hws c hc).1
  have htry := tryHeading_eq hk1 hk6 hws' hc0 hc0h htext hrest
  have hdrop : ((List.replicate k '#' ++ (ws ++ c0 :: (text ++ rest))).drop
      (k + ws.length + (c0 :: text).length)) = rest := by
    have hshape : List.replicate k '#' ++ (ws ++ c0 :: (text ++ rest)) =
        ((List.replicate k '#' ++ ws) ++ (c0 :: text)) ++ rest := by
      simp [List.append_assoc]
    rw [hshape]
    exact List.drop_left' (by simp; omega)
  cases k with
  | zero => omega
  | succ kk =>
    rw [List.replicate_succ, List.cons_append] at htry hdrop ⊢
    simp only [headingGo, if_true, htry, hdrop]

theorem headingPass_line (k : Nat) (ws : List Char) (c0 : Char) (text rest : List Char)
    (hk1 : 1 ≤ k) (hk6 : k ≤ 6)
    (hws : ∀ c ∈ ws, isJsSpace c = true ∧ isLineTerm c = false)
    (hc0 : isJsSpace c0 = false) (hc0h : ws = [] → c0 ≠ '#')
    (htext : ∀ c ∈ text, isLineTerm c = false)
    (hrest : rest = [] ∨ ∃ d t, rest = d :: t ∧ isLineTerm d = true) :
    headingPass (List.replicate k '#' ++ (ws ++ c0 :: (text ++ rest))) =
      '*' :: '*' :: (jsTrim (c0 :: text) ++ '*' :: '*' ::
        headingGo rest.length false rest) := by
  have hlen : (List.replicate k '#' ++ (ws ++ c0 :: (text ++ rest))).length =
      k + ws.length + 1 + text.length + rest.length := by
    simp [List.length_append]
    omega
  have hpos : 1 ≤ (List.replicate k '#' ++ (ws ++ c0 :: (text ++ rest))).length := by
    omega
  rw [headingPass, show (List.replicate k '#' ++ (ws ++ c0 :: (text ++ rest))).length =
    ((List.replicate k '#' ++ (ws ++ c0 :: (text ++ rest))).length - 1) + 1 by omega]
  rw [headingGo_line _ k ws c0 text rest hk1 hk6 hws hc0 hc0h htext hrest]
  rw [headingGo_fuel ((List.replicate k '#' ++ (ws ++ c0 :: (text ++ rest))).length - 1)
    rest.length false rest (by omega) (le_refl _)]

theorem no_cr_heading_input (k : Nat) {ws : List Char} {c0 : Char} {text rest : List Char}
    (hws : ∀ c ∈ ws, isLineTerm c = false)
    (hc0 : isJsSpace c0 = false)
    (htext : ∀ c ∈ text, isLineTerm c = false)
    (hrest : '\r' ∉ rest) :
    '\r' ∉ List.replicate k '#' ++ (ws ++ c0 :: (text ++ rest)) := by
  intro hmem
  rcases List.mem_append.mp hmem with h | h
  · exact absurd (List.eq_of_mem_replicate h) (by decide)
  · rcases List.mem_append.mp h with h | h
    · have := hws _ h
      rw [show isLineTerm '\r' = true by decide] at this
      exact absurd this (by simp)
    · rcases List.mem_cons.mp h with h | h
      · rw [← h] at hc0
        rw [show isJsSpace '\r' = true by decide] at hc0
        exact absurd hc0 (by simp)
      · rcases List.mem_append.mp h with h | h
        · have := htext _ h
          rw [show isLineTerm '\r' = true by decide] at this
          exact absurd this (by simp)
        · exact hrest h

theorem build_congr {s1 s2 : List Char} (h : lineNormalize s1 = lineNormalize s2) :
    buildRichTextFromMarkdownA s1 = buildRichTextFromMarkdownA s2 ∧
    buildRichTextFromMarkdownB s1 = buildRichTextFromMarkdownB s2 := by
  have hpre : preLink s1 = preLink s2 := by
    simp only [preLink]
    rw [h]
  have hmk : markedA s1 = markedA s2 := by
    simp only [markedA]
    rw [hpre]
  have hLA : stageLinkA s1 = stageLinkA s2 := by
    simp only [stageLinkA]
    rw [hmk, hpre]
  have hBA : stageBoldA s1 = stageBoldA s2 := by
    simp only [stageBoldA]
    rw [hLA]
  have hIA : stageItalicA s1 = stageItalicA s2 := by
    simp only [stageItalicA]
    rw [hBA]
  have hCA : stageCodeA s1 = stageCodeA s2 := by
    simp only [stageCodeA]
    rw [hIA]
  have hLB : stageLinkB s1 = stageLinkB s2 := by
    simp only [stageLinkB]
    rw [hpre]
  have hBB : stageBoldB s1 = stageBoldB s2 := by
    simp only [stageBoldB]
    rw [hLB]
  have hIB : stageItalicB s1 = stageItalicB s2 := by
    simp only [stageItalicB]
    rw [hBB]
  have hCB : stageCodeB s1 = stageCodeB s2 := by
    simp only [stageCodeB]
    rw [hIB]
  constructor
  · simp only [buildRichTextFromMarkdownA]
    rw [hLA, hBA, hIA, hCA]
  · simp only [buildRichTextFromMarkdownB]
    rw [hLB, hBB, hIB, hCB]

theorem lineNormalize_heading (k : Nat) (ws : List Char) (c0 : Char) (text rest : List Char)
    (hk1 : 1 ≤ k) (hk6 : k ≤ 6)
    (hws : ∀ c ∈ ws, isJsSpace c = true ∧ isLineTerm c = false)
    (hc0 : isJsSpace c0 = false) (hc0h : ws = [] → c0 ≠ '#')
    (htext : ∀ c ∈ text, isLineTerm c = false)
    (hrest : rest = [] ∨ ∃ d t, rest = d :: t ∧ isLineTerm d = true)
    (hcr : '\r' ∉ rest) :
    lineNormalize (List.replicate k '#' ++ (ws ++ c0 :: (text ++ rest))) =
      bulletGo ('*' :: '*' :: (jsTrim (c0 :: text) ++ '*' :: '*' ::
          headingGo rest.length false rest)).length true
        ('*' :: '*' :: (jsTrim (c0 :: text) ++ '*' :: '*' ::
          headingGo rest.length false rest)) := by
  have hnorm : normalizeNewlines (List.replicate k '#' ++ (ws ++ c0 :: (text ++ rest))) =
      List.replicate k '#' ++ (ws ++ c0 :: (text ++ rest)) :=
    normalizeNewlines_id _ (no_cr_heading_input k (fun c hc => (hws c hc).2) hc0 htext hcr)
  simp only [lineNormalize, hnorm]
  rw [headingPass_line k ws c0 text rest hk1 hk6 hws hc0 hc0h htext hrest]

/-- C6 amended: (i) universally, any heading line — 1 to 6 hashes, a run of
whitespace characters that are not line terminators, then a first captured
character (non-space, and not '#' when the whitespace run is empty) followed
by same-line text up to a line terminator or the end of input — is rewritten
by the heading scanner to '**' ++ trimmed capture ++ '**' before the rest is
scanned; (ii) universally, all heading levels k, k' in 1..6 over the same
capture collapse to the same compiled output in both engine variants; and
(iii) the "#…# Title" instances for k = 1..6 compile to ("Title", [Bold 0 5])
in both variants, including the "## Title" scenario; however, a heading line
with only whitespace after its hashes is not rewritten per-line: JS \s also
matches the newline, so the match absorbs text from a following line, as in
"# \nfoo" → "**foo**". -/
theorem c6_heading_amended :
    (∀ (fuel k : Nat) (ws : List Char) (c0 : Char) (text rest : List Char),
      1 ≤ k → k ≤ 6 →
      (∀ c ∈ ws, isJsSpace c = true ∧ isLineTerm c = false) →
      isJsSpace c0 = false → (ws = [] → c0 ≠ '#') →
      (∀ c ∈ text, isLineTerm c = false) →
      (rest = [] ∨ ∃ d t, rest = d :: t ∧ isLineTerm d = true) →
      headingGo (fuel + 1) true (List.replicate k '#' ++ (ws ++ c0 :: (text ++ rest))) =
        '*' :: '*' :: (jsTrim (c0 :: text) ++ '*' :: '*' :: headingGo fuel false rest)) ∧
    (∀ (k k' : Nat) (ws : List Char) (c0 : Char) (text rest : List Char),
      1 ≤ k → k ≤ 6 → 1 ≤ k' → k' ≤ 6 →
      (∀ c ∈ ws, isJsSpace c = true ∧ isLineTerm c = false) →
      isJsSpace c0 = false → (ws = [] → c0 ≠ '#') →
      (∀ c ∈ text, isLineTerm c = false) →
      (rest = [] ∨ ∃ d t, rest = d :: t ∧ isLineTerm d = true) →
      '\r' ∉ rest →
      buildRichTextFromMarkdownA (List.replicate k '#' ++ (ws ++ c0 :: (text ++ rest))) =
        buildRichTextFromMarkdownA (List.replicate k' '#' ++ (ws ++ c0 :: (text ++ rest))) ∧
      buildRichTextFromMarkdownB (List.replicate k '#' ++ (ws ++ c0 :: (text ++ rest))) =
        buildRichTextFromMarkdownB (List.replicate k' '#' ++ (ws ++ c0 :: (text ++ rest)))) ∧
    buildRichTextFromMarkdownA ("# Title".data) =
      ("Title".data, [⟨0, 5, StyleKind.bold, none⟩]) ∧
    buildRichTextFromMarkdownA ("## Title".data) =
      ("Title".data, [⟨0, 5, StyleKind.bold, none⟩]) ∧
    buildRichTextFromMarkdownA ("### Title".data) =
      ("Title".data, [⟨0, 5, StyleKind.bold, none⟩]) ∧
    buildRichTextFromMarkdownA ("#### Title".data) =
      ("Title".data, [⟨0, 5, StyleKind.bold, none⟩]) ∧
    buildRichTextFromMarkdownA ("##### Title".data) =
      ("Title".data, [⟨0, 5, StyleKind.bold, none⟩]) ∧
    buildRichTextFromMarkdownA ("###### Title".data) =
      ("Title".data, [⟨0, 5, StyleKind.bold, none⟩]) ∧
    buildRichTextFromMarkdownB ("# Title".data) =
      ("Title".data, [⟨0, 5, StyleKind.bold, none⟩]) ∧
    buildRichTextFromMarkdownB ("## Title".data) =
      ("Title".data, [⟨0, 5, StyleKind.bold, none⟩]) ∧
    buildRichTextFromMarkdownB ("### Title".data) =
      ("Title".data, [⟨0, 5, StyleKind.bold, none⟩]) ∧
    buildRichTextFromMarkdownB ("#### Title".data) =
      ("Title".data, [⟨0, 5, StyleKind.bold, none⟩]) ∧
    buildRichTextFromMarkdownB ("##### Title".data) =
      ("Title".data, [⟨0, 5, StyleKind.bold, none⟩]) ∧
    buildRichTextFromMarkdownB ("###### Title".data) =
      ("Title".data, [⟨0, 5, StyleKind.bold, none⟩]) := by
  constructor
  · intro fuel k ws c0 text rest hk1 hk6 hws hc0 hc0h htext hrest
    exact headingGo_line fuel k ws c0 text rest hk1 hk6 hws hc0 hc0h htext hrest
  constructor
  · intro k k' ws c0 text rest hk1 hk6 hk1' hk6' hws hc0 hc0h htext hrest hcr
    apply build_congr
    rw [lineNormalize_heading k ws c0 text rest hk1 hk6 hws hc0 hc0h htext hrest hcr,
      lineNormalize_heading k' ws c0 text rest hk1' hk6' hws hc0 hc0h htext hrest hcr]
  refine ⟨?_, ?_, ?_, ?_, ?_, ?_, ?_, ?_, ?_, ?_, ?_, ?_⟩ <;> decide

/-- Witness for the C6 amendment: the universal per-line rewrite applied to
the concrete heading line "## Title" (2 hashes, whitespace run " ", capture
"Title", empty continuation), and the universal collapse applied at levels
1 and 6 over the same capture. -/
theorem c6_heading_amended_witness :
    headingGo 1 true (List.replicate 2 '#' ++ ([' '] ++ ('T' :: ("itle".data ++ [])))) =
      '*' :: '*' :: (jsTrim ('T' :: "itle".data) ++ '*' :: '*' :: headingGo 0 false []) ∧
    buildRichTextFromMarkdownA
        (List.replicate 1 '#' ++ ([' '] ++ ('T' :: ("itle".data ++ [])))) =
      buildRichTextFromMarkdownA
        (List.replicate 6 '#' ++ ([' '] ++ ('T' :: ("itle".data ++ [])))) :=
  ⟨c6_heading_amended.1 0 2 [' '] 'T' "itle".data [] (by decide) (by decide) (by decide)
      (by decide) (by decide) (by decide) (Or.inl rfl),
   (c6_heading_amended.2.1 1 6 [' '] 'T' "itle".data [] (by decide) (by decide) (by decide)
      (by decide) (by decide) (by decide) (by decide) (by decide) (Or.inl rfl)
      (by decide)).1⟩
